import Mathlib

/-!
Verification of the cpca address-parsing core: a shallow embedding of the
matcher (character trie with longest-prefix lookup), the administrative
index, and the sequential disambiguation parser, together with theorems
settling the specification claims.

Strings are embedded as lists of Unicode scalar values (`List Char`,
matching Rust `char`); byte positions are tracked explicitly via the
UTF-8 size of each character, exactly as the source does with
`char::len_utf8`.
-/

abbrev Str : Type := List Char

/-- Character list of a string literal (used only to write names). -/
def chars (s : String) : Str := s.data

/-- UTF-8 byte length of a character list, as Rust `str::len`. -/
def utf8Len (s : Str) : Nat := (s.map Char.utf8Size).sum

/-- The Unicode White_Space property, as Rust `char::is_whitespace`. -/
def isWhitespaceRust (c : Char) : Bool :=
  let n := c.toNat
  n == 0x9 || n == 0xA || n == 0xB || n == 0xC || n == 0xD || n == 0x20 ||
  n == 0x85 || n == 0xA0 || n == 0x1680 || (0x2000 ≤ n && n ≤ 0x200A) ||
  n == 0x2028 || n == 0x2029 || n == 0x202F || n == 0x205F || n == 0x3000

/-- Rust `str::trim_start`. -/
def trimLeft (s : Str) : Str := s.dropWhile isWhitespaceRust

/-- Rust `str::trim_end`. -/
def trimRight (s : Str) : Str := (s.reverse.dropWhile isWhitespaceRust).reverse

/-- Rust `str::trim` (strips whitespace from both ends). -/
def trim (s : Str) : Str := trimRight (trimLeft s)

/-- One layer of Rust `str::trim_end_matches(pat)`: fuelled iteration that
strips the suffix `pat` as long as it is present (fuel `s.length` always
suffices because each strip removes at least one character). -/
def trimEndMatchesAux : Nat → Str → Str → Str
  | 0, s, _ => s
  | fuel + 1, s, pat =>
      if !pat.isEmpty && pat.isSuffixOf s then
        trimEndMatchesAux fuel (s.take (s.length - pat.length)) pat
      else s

/-- Rust `str::trim_end_matches` with a string pattern. -/
def trimEndMatches (s pat : Str) : Str := trimEndMatchesAux s.length s pat

/-- Rust `str::trim_end_matches` with a character-class pattern
(`&['区', '县', '市', '旗'][..]`): strips trailing characters that are in
the class. -/
def trimEndCharSet (s : Str) (cs : List Char) : Str :=
  (s.reverse.dropWhile (fun c => cs.contains c)).reverse

/-- Association-list model of `HashMap::get`. -/
def lookupA {β : Type} (m : List (Str × β)) (k : Str) : Option β :=
  (m.find? (fun p => p.1 == k)).map (fun p => p.2)

/-- Association-list model of `HashMap::insert` (overwrites the entry). -/
def insertA {β : Type} : List (Str × β) → Str → β → List (Str × β)
  | [], k, v => [(k, v)]
  | p :: rest, k, v => if p.1 == k then (k, v) :: rest else p :: insertA rest k v

/-- Model of `HashSet::insert`: first-occurrence order, no duplicates. -/
def insertSet (l : List Str) (x : Str) : List Str :=
  if l.contains x then l else l ++ [x]

/-- Model of `map.entry(k).or_default().insert(v)` for a map of sets. -/
def addToSetMap (m : List (Str × List Str)) (k v : Str) : List (Str × List Str) :=
  match lookupA m k with
  | some s => insertA m k (insertSet s v)
  | none => m ++ [(k, [v])]

/-- Model of `map.entry(k).or_default().push(v)` for a map of vectors. -/
def pushMulti (m : List (Str × List (Str × Str))) (k : Str) (v : Str × Str) :
    List (Str × List (Str × Str)) :=
  match lookupA m k with
  | some l => insertA m k (l ++ [v])
  | none => m ++ [(k, [v])]

/-- Rust `str::ends_with(char)`. -/
def endsWithChar (s : Str) (c : Char) : Bool := s.getLast? == some c

/-! ## The trie (src/trie.rs) -/

/-- Embeds `TrieNode<String>`: children are an association list (modelling the
`HashMap<char, TrieNode>`), plus the stored value and the end marker. -/
inductive Trie : Type where
  | mk (val : Option Str) (isEnd : Bool) (children : List (Char × Trie))

def Trie.val : Trie → Option Str
  | .mk v _ _ => v

def Trie.isEnd : Trie → Bool
  | .mk _ e _ => e

def Trie.children : Trie → List (Char × Trie)
  | .mk _ _ cs => cs

/-- Embeds `TrieNode::default()`. -/
def Trie.empty : Trie := .mk none false []

/-- Embeds `node.children.get(&ch)`. -/
def findChild (cs : List (Char × Trie)) (c : Char) : Option Trie :=
  (cs.find? (fun p => p.1 == c)).map (fun p => p.2)

/-- Overwrite (or create) the child slot for character `c`. -/
def setChild : List (Char × Trie) → Char → Trie → List (Char × Trie)
  | [], c, t => [(c, t)]
  | p :: rest, c, t => if p.1 == c then (c, t) :: rest else p :: setChild rest c t

/-- Embeds `Trie::insert`: walks `word` character by character (creating default
nodes on demand via `entry(ch).or_default()`), then marks the final node
terminal and stores `value`, overwriting any prior value. -/
def Trie.insert : Trie → Str → Str → Trie
  | t, [], value => .mk (some value) true t.children
  | t, c :: w, value =>
      .mk t.val t.isEnd
        (setChild t.children c
          (Trie.insert ((findChild t.children c).getD Trie.empty) w value))

/-- The node reached by following `w` from `t`, if every step has a child. -/
def Trie.walk : Trie → Str → Option Trie
  | t, [] => some t
  | t, c :: w =>
      match findChild t.children c with
      | some n => Trie.walk n w
      | none => none

/-- Embeds `Trie::get`: exact lookup, returning the stored value only at a
terminal node. -/
def Trie.get (t : Trie) (w : Str) : Option Str :=
  match t.walk w with
  | some n => if n.isEnd then n.val else none
  | none => none

/-- Loop body of `Trie::find_longest_prefix`: scans `text` one character
at a time, descending in the trie; at every terminal node that carries a
value it overwrites the best-so-far match with the slice consumed so far,
its value and its byte length; it stops when no child exists for the next
character, returning the best match. -/
def flpAux : Str → Trie → Str → Nat → Option (Str × Str × Nat) → Option (Str × Str × Nat)
  | [], _, _, _, best => best
  | c :: rest, t, consumed, curLen, best =>
      match findChild t.children c with
      | none => best
      | some n =>
          let consumed2 := consumed ++ [c]
          let curLen2 := curLen + c.utf8Size
          let best2 :=
            if n.isEnd then
              match n.val with
              | some v => some (consumed2, v, curLen2)
              | none => best
            else best
          flpAux rest n consumed2 curLen2 best2

/-- Embeds `Trie::find_longest_prefix` (renamed here `findLongest`): returns the
matched slice, the associated value and the matched byte length, or
`none` when no registered name is a prefix of `text`. -/
def Trie.findLongest (t : Trie) (text : Str) : Option (Str × Str × Nat) :=
  flpAux text t [] 0 none

/-! ## Region data and index (src/region.rs, src/data.rs) -/

/-- An administrative record: province, city, optional district. -/
structure Region where
  province : Str
  city : Str
  district : Option Str
deriving DecidableEq

/-- Embeds `RegionIndex`: the multi-directional administrative index. Sets are
modelled as de-duplicated lists in first-insertion order; hash maps as
association lists. -/
structure RegionIndex where
  provinces : List Str
  province_cities : List (Str × List Str)
  city_to_province : List (Str × Str)
  city_districts : List (Str × List Str)
  district_to_city : List (Str × List (Str × Str))
  cities : List Str
  districts : List Str

/-- The four district-type suffixes recognized when building
abbreviations. -/
def districtSuffixes : List Char := ['区', '县', '市', '旗']

/-- One iteration of the loop body of `RegionIndex::build`: registers a
single record in every index. -/
def buildStep (idx : RegionIndex) (r : Region) : RegionIndex :=
  let provinces := insertSet idx.provinces r.province
  let province_cities := addToSetMap idx.province_cities r.province r.city
  let ctp1 := insertA idx.city_to_province r.city r.province
  let cities := insertSet idx.cities r.city
  let city_to_province :=
    if ['市'].isSuffixOf r.city then
      insertA ctp1 (trimEndMatches r.city ['市']) r.province
    else ctp1
  match r.district with
  | none =>
      ⟨provinces, province_cities, city_to_province, idx.city_districts,
        idx.district_to_city, cities, idx.districts⟩
  | some d =>
      let city_districts := addToSetMap idx.city_districts r.city d
      let dtc1 := pushMulti idx.district_to_city d (r.province, r.city)
      let districts := insertSet idx.districts d
      let district_to_city := districtSuffixes.foldl
        (fun m suf =>
          if [suf].isSuffixOf d then
            let short := trimEndMatches d [suf]
            if !short.isEmpty then pushMulti m short (r.province, r.city) else m
          else m) dtc1
      ⟨provinces, province_cities, city_to_province, city_districts,
        district_to_city, cities, districts⟩

/-- Embeds `RegionIndex::build`: a single pass over the record list. -/
def RegionIndex.build (regions : List Region) : RegionIndex :=
  regions.foldl buildStep ⟨[], [], [], [], [], [], []⟩

/-- The four direct-administered municipalities (`MUNICIPALITIES`). -/
def MUNICIPALITIES : List Str :=
  [chars "北京市", chars "上海市", chars "天津市", chars "重庆市"]

/-- Embeds `RegionIndex::is_municipality`. -/
def RegionIndex.is_municipality (_idx : RegionIndex) (p : Str) : Bool :=
  MUNICIPALITIES.contains p

/-- Embeds `RegionIndex::validate_district`: exact membership of `district` in
the city's district set. -/
def RegionIndex.validate_district (idx : RegionIndex) (city district : Str) : Bool :=
  match lookupA idx.city_districts city with
  | some ds => ds.contains district
  | none => false

/-- Embeds `province_aliases` (src/data.rs): the static colloquial-short-name
table, in source order. -/
def province_aliases : List (Str × Str) :=
  [(chars "广东", chars "广东省"), (chars "江苏", chars "江苏省"),
   (chars "浙江", chars "浙江省"), (chars "山东", chars "山东省"),
   (chars "河南", chars "河南省"), (chars "河北", chars "河北省"),
   (chars "四川", chars "四川省"), (chars "湖北", chars "湖北省"),
   (chars "湖南", chars "湖南省"), (chars "福建", chars "福建省"),
   (chars "安徽", chars "安徽省"), (chars "江西", chars "江西省"),
   (chars "陕西", chars "陕西省"), (chars "山西", chars "山西省"),
   (chars "辽宁", chars "辽宁省"), (chars "吉林", chars "吉林省"),
   (chars "黑龙江", chars "黑龙江省"), (chars "云南", chars "云南省"),
   (chars "贵州", chars "贵州省"), (chars "甘肃", chars "甘肃省"),
   (chars "海南", chars "海南省"), (chars "青海", chars "青海省"),
   (chars "台湾", chars "台湾省"), (chars "广西", chars "广西壮族自治区"),
   (chars "内蒙古", chars "内蒙古自治区"), (chars "西藏", chars "西藏自治区"),
   (chars "新疆", chars "新疆维吾尔自治区"), (chars "宁夏", chars "宁夏回族自治区"),
   (chars "北京", chars "北京市"), (chars "上海", chars "上海市"),
   (chars "天津", chars "天津市"), (chars "重庆", chars "重庆市"),
   (chars "香港", chars "香港特别行政区"), (chars "澳门", chars "澳门特别行政区")]

/-! ## The parser (src/parser.rs) -/

/-- Embeds `AddressParser`: three tries plus the index and the alias table. -/
structure AddressParser where
  province_trie : Trie
  city_trie : Trie
  district_trie : Trie
  index : RegionIndex
  aliases : List (Str × Str)

/-- Embeds `AddressParser::new` applied to a record list: builds the index and
the three tries, inserting every canonical name plus the discovered
abbreviations (city names with the `市` suffix stripped; district names
with one of the four suffixes stripped when the remainder has at least
two characters). -/
def AddressParser.new (regions : List Region) : AddressParser :=
  let index := RegionIndex.build regions
  let aliases := province_aliases
  let province_trie := index.provinces.foldl
    (fun t p =>
      aliases.foldl (fun t q => if q.2 == p then t.insert q.1 p else t)
        (t.insert p p)) Trie.empty
  let city_trie := index.cities.foldl
    (fun t c =>
      let t := t.insert c c
      if ['市'].isSuffixOf c then t.insert (trimEndMatches c ['市']) c else t)
    Trie.empty
  let district_trie := index.districts.foldl
    (fun t d =>
      let t := t.insert d d
      districtSuffixes.foldl
        (fun t suf =>
          if [suf].isSuffixOf d then
            let short := trimEndMatches d [suf]
            if !short.isEmpty && decide (2 ≤ short.length) then t.insert short d
            else t
          else t) t) Trie.empty
  ⟨province_trie, city_trie, district_trie, index, aliases⟩

/-- Embeds `ParsedAddress`. -/
structure ParsedAddress where
  province : Option Str
  city : Option Str
  district : Option Str
  detail : Str
deriving DecidableEq

/-- Embeds `ParsedAddress::empty()`. -/
def ParsedAddress.empty : ParsedAddress := ⟨none, none, none, []⟩

/-- The mutable state threaded through the parse steps: the three
partially-filled fields plus the shrinking `remaining` suffix. -/
structure PState where
  province : Option Str
  city : Option Str
  district : Option Str
  remaining : Str

/-- The `prefer_district` condition of step 2 of `AddressParser::parse`:
with no recorded province, prefer the district match when it is
byte-longer than the city match, or its canonical value ends in `区`,
`县` or `旗`, or only the district matcher matched; always false once a
province was recorded. -/
def prefer_district (provNone : Bool) (cm dm : Option (Str × Str × Nat)) : Bool :=
  if provNone then
    match cm, dm with
    | some (_, _, cl), some (_, dn, dl) =>
        decide (cl < dl) || endsWithChar dn '区' || endsWithChar dn '县' ||
          endsWithChar dn '旗'
    | some _, none => false
    | none, some _ => true
    | none, none => false
  else false

/-- Embeds `AddressParser::validate_district_flexible`: accepts `district` for
`city` when some registered district of the city starts with it, or it
starts with a registered district's suffix-stripped form. -/
def validate_district_flexible (P : AddressParser) (city district : Str) : Bool :=
  match lookupA P.index.city_districts city with
  | some ds =>
      ds.any (fun d =>
        district.isPrefixOf d ||
          (trimEndCharSet d districtSuffixes).isPrefixOf district)
  | none => false

/-- Step 2 of `AddressParser::parse` (city-vs-district precedence): run
both matchers on `remaining`; if the district is preferred, record it,
consume it, and resolve province and city only when the matched district
has a unique `(province, city)` owner; otherwise record the city match
when it is consistent with any already-recorded province, consume it, and
reverse-infer the province when it was unset. -/
def stage2 (P : AddressParser) (st : PState) : PState :=
  let cm := P.city_trie.findLongest st.remaining
  let dm := P.district_trie.findLongest st.remaining
  if prefer_district st.province.isNone cm dm then
    match dm with
    | some (m, dn, _) =>
        let pc : Option Str × Option Str :=
          match lookupA P.index.district_to_city dn with
          | some ps =>
              match ps with
              | [q] => (some q.1, some q.2)
              | _ => (st.province, st.city)
          | none => (st.province, st.city)
        ⟨pc.1, pc.2, some dn, st.remaining.drop m.length⟩
    | none => st
  else
    match cm with
    | some (m, cn, _) =>
        let valid :=
          match st.province with
          | some p => lookupA P.index.city_to_province cn == some p
          | none => true
        if valid then
          let prov :=
            match st.province with
            | some p => some p
            | none => lookupA P.index.city_to_province cn
          ⟨prov, some cn, st.district, st.remaining.drop m.length⟩
        else st
    | none => st

/-- Step 3 of `AddressParser::parse` (district completion): if no
district was recorded, match one on `remaining`; validate it against a
known city (strictly or flexibly), record and consume it, then resolve
city (unique owner, or filter the owner list by a known province) and
finally reverse-infer the province from the city when still unset. -/
def stage3 (P : AddressParser) (st : PState) : PState :=
  if st.district.isSome then st
  else
    match P.district_trie.findLongest st.remaining with
    | some (m, dn, _) =>
        let valid :=
          match st.city with
          | some c =>
              P.index.validate_district c dn || validate_district_flexible P c dn
          | none => true
        if valid then
          let pc : Option Str × Option Str :=
            if st.city.isNone then
              match lookupA P.index.district_to_city dn with
              | some ps =>
                  match ps with
                  | [q] => (some q.1, some q.2)
                  | _ =>
                      match st.province with
                      | some p =>
                          match ps.find? (fun q => q.1 == p) with
                          | some q => (st.province, some q.2)
                          | none => (st.province, st.city)
                      | none => (st.province, st.city)
              | none => (st.province, st.city)
            else (st.province, st.city)
          let prov :=
            match pc.1 with
            | some p => some p
            | none =>
                match pc.2 with
                | some c => lookupA P.index.city_to_province c
                | none => none
          ⟨prov, pc.2, some dn, st.remaining.drop m.length⟩
        else st
    | none => st

/-- Step 4 of `AddressParser::parse` (municipality backfill): when a
recorded province is a municipality and no city was recorded, set the
city to the province. -/
def stage4 (P : AddressParser) (st : PState) : PState :=
  match st.province with
  | some p =>
      if P.index.is_municipality p && st.city.isNone then
        ⟨some p, some p, st.district, st.remaining⟩
      else st
  | none => st

/-- Steps 2-4 of `AddressParser::parse` followed by the final
`detail = remaining.trim()`. -/
def finishStages (P : AddressParser) (prov : Option Str) (remaining : Str) :
    ParsedAddress :=
  let st := stage4 P (stage3 P (stage2 P ⟨prov, none, none, remaining⟩))
  ⟨st.province, st.city, st.district, trim st.remaining⟩

/-- Embeds `AddressParser::parse`: trims the input, matches a province (with the
municipality shortcut returning immediately after a single validated
district attempt), then runs steps 2-4 and right-and-left-trims the
unconsumed remainder into `detail`. Slicing `remaining[len..]` at the
matched byte length equals dropping the matched characters (see the C9
theorem), so consumption is modelled by `List.drop` of the matched
slice's character count. -/
def AddressParser.parse (P : AddressParser) (address : Str) : ParsedAddress :=
  let address := trim address
  if address.isEmpty then ParsedAddress.empty
  else
    match P.province_trie.findLongest address with
    | some (m, norm, _) =>
        let remaining := address.drop m.length
        if P.index.is_municipality norm then
          match P.district_trie.findLongest remaining with
          | some (dm, dn, _) =>
              if P.index.validate_district norm dn then
                ⟨some norm, some norm, some dn, trim (remaining.drop dm.length)⟩
              else ⟨some norm, some norm, none, trim remaining⟩
          | none => ⟨some norm, some norm, none, trim remaining⟩
        else finishStages P (some norm) remaining
    | none => finishStages P none address

/-- The final value of the `remaining` local variable of
`AddressParser::parse`: the trimmed input after every recognized segment
has been consumed - the matched province slice, then (municipality
branch) the single validated district slice, or (general branch) the
consumptions performed by steps 2-3, read off the very stage functions
`parse` runs. `parse` computes `detail` as the both-ends trim of exactly
this string. -/
def parseRemaining (P : AddressParser) (address : Str) : Str :=
  let address := trim address
  if address.isEmpty then []
  else
    match P.province_trie.findLongest address with
    | some (m, norm, _) =>
        let remaining := address.drop m.length
        if P.index.is_municipality norm then
          match P.district_trie.findLongest remaining with
          | some (dm, dn, _) =>
              if P.index.validate_district norm dn then remaining.drop dm.length
              else remaining
          | none => remaining
        else (stage4 P (stage3 P (stage2 P ⟨some norm, none, none, remaining⟩))).remaining
    | none => (stage4 P (stage3 P (stage2 P ⟨none, none, none, address⟩))).remaining

/-- Embeds `AddressParser::normalize`: resolve the province through the alias
table, else accept it if canonical, else try the `省` suffix; resolve the
city by membership, else the `市` suffix; resolve the district by
membership, else the suffixes `区`, `县`, `市` in order; concatenate with
no separator and no de-duplication. -/
def AddressParser.normalize (P : AddressParser) (province city : Str)
    (district : Option Str) : Str :=
  let norm_province :=
    match lookupA P.aliases province with
    | some s => s
    | none =>
        if P.index.provinces.contains province then province
        else
          let with_suffix := province ++ ['省']
          if P.index.provinces.contains with_suffix then with_suffix else province
  let norm_city :=
    if P.index.cities.contains city then city
    else
      let with_suffix := city ++ ['市']
      if P.index.cities.contains with_suffix then with_suffix else city
  let norm_district := district.map (fun d =>
    if P.index.districts.contains d then d
    else if P.index.districts.contains (d ++ ['区']) then d ++ ['区']
    else if P.index.districts.contains (d ++ ['县']) then d ++ ['县']
    else if P.index.districts.contains (d ++ ['市']) then d ++ ['市']
    else d)
  norm_province ++ norm_city ++ (match norm_district with | some d => d | none => [])

/-! ## A concrete gazetteer instance -/

/-- Modelled from the spec: the bundled gazetteer `data/pca.csv` consumed
by `load_regions` is not part of the core sources; the spec states the
core consumes "a finite, already-deduplicated list of
(province, city, district-or-none) records". This record list covers the
spec's scenarios (a regular province, a municipality, and the two owners
of the shared district name `朝阳区`, plus the prefecture city `朝阳市`
that shares its short form). -/
def regions0 : List Region :=
  [⟨chars "广东省", chars "深圳市", some (chars "南山区")⟩,
   ⟨chars "北京市", chars "北京市", some (chars "朝阳区")⟩,
   ⟨chars "吉林省", chars "长春市", some (chars "朝阳区")⟩,
   ⟨chars "辽宁省", chars "朝阳市", some (chars "双塔区")⟩]

/-- The parser built over the modelled gazetteer. -/
def P0 : AddressParser := AddressParser.new regions0

/-- Bounded check that every terminal value in the subtrie is `v` and the
subtrie's depth is below the fuel (used to show that a longest-prefix
match through this subtrie can only ever report the value `v`). -/
def okBelow : Nat → Trie → Str → Bool
  | 0, t, v => t.children.isEmpty && (!t.isEnd || t.val == some v)
  | k + 1, t, v =>
      (!t.isEnd || t.val == some v) && t.children.all (fun p => okBelow k p.2 v)

/-- The specification of a longest-prefix match result: either the
reported slice is a nonempty registered prefix of the text of maximal
length, reported with its stored value and byte length, or no nonempty
prefix of the text is registered. -/
def MatchSpec (root : Trie) (text : Str) (res : Option (Str × Str × Nat)) : Prop :=
  match res with
  | some (m, v, len) =>
      m ≠ [] ∧ m <+: text ∧ root.get m = some v ∧ len = utf8Len m ∧
        ∀ w, w ≠ [] → w <+: text → (root.get w).isSome → w.length ≤ m.length
  | none => ∀ w, w ≠ [] → w <+: text → root.get w = none

/-- Every value stored in the city-to-province map names a known
province. Holds for every built index by construction. -/
def CtpProv (idx : RegionIndex) : Prop :=
  ∀ q ∈ idx.city_to_province, q.2 ∈ idx.provinces

/-- Every owner pair recorded for a district names a known province.
Holds for every built index by construction. -/
def DtcProv (idx : RegionIndex) : Prop :=
  ∀ e ∈ idx.district_to_city, ∀ q ∈ e.2, q.1 ∈ idx.provinces

/-- Every canonical city has an entry in the city-to-province map. Holds
for every built index by construction. -/
def CityKeys (idx : RegionIndex) : Prop :=
  ∀ c ∈ idx.cities, ∃ p, lookupA idx.city_to_province c = some p

/-- Data-consistency of the gazetteer: each recorded owner pair
`(province, city)` of a district agrees with the city-to-province map
(decidable for a concrete index). -/
def OwnerConsistent (idx : RegionIndex) : Prop :=
  ∀ e ∈ idx.district_to_city, ∀ q ∈ e.2,
    lookupA idx.city_to_province q.2 = some q.1

/-- Data-consistency of the gazetteer: each municipality province is
registered as its own city in the city-to-province map (decidable for a
concrete index). -/
def MunSelf (idx : RegionIndex) : Prop :=
  ∀ p ∈ idx.provinces, idx.is_municipality p = true →
    lookupA idx.city_to_province p = some p

/-- All values stored in a trie belong to `S`. -/
def TrieVals (t : Trie) (S : List Str) : Prop :=
  ∀ u v, t.get u = some v → v ∈ S

/-- The city-province coherence invariant of a partially-filled parse
state: a recorded city always comes with the province registered for it,
and every recorded province is a known province. -/
def GoodSt (idx : RegionIndex) (st : PState) : Prop :=
  (∀ c, st.city = some c →
    ∃ p, st.province = some p ∧ lookupA idx.city_to_province c = some p) ∧
  (∀ p, st.province = some p → p ∈ idx.provinces)

/-! ## Lemmas: association-list maps -/

theorem lookupA_cons {β : Type} (p : Str × β) (rest : List (Str × β)) (k : Str) :
    lookupA (p :: rest) k = if p.1 = k then some p.2 else lookupA rest k := by
  by_cases h : p.1 = k <;> simp [lookupA, List.find?_cons, h]

theorem lookupA_insertA {β : Type} (m : List (Str × β)) (k k' : Str) (v : β) :
    lookupA (insertA m k v) k' = if k' = k then some v else lookupA m k' := by
  induction m with
  | nil =>
      by_cases h : k' = k
      · simp [insertA, lookupA_cons, h]
      · have : ¬((k, v).1 = k') := fun h' => h h'.symm
        simp [insertA, lookupA_cons, this, h, lookupA]
  | cons p rest ih =>
      by_cases hp : p.1 = k
      · have hpb : (p.1 == k) = true := beq_iff_eq.mpr hp
        by_cases h : k' = k
        · simp [insertA, hpb, lookupA_cons, h]
        · have hne : ¬(k = k') := fun h' => h h'.symm
          have hp' : ¬(p.1 = k') := fun h' => h (hp.symm.trans h').symm
          simp [insertA, hpb, lookupA_cons, hne, h, hp']
      · have hpb : (p.1 == k) = false := beq_eq_false_iff_ne.mpr hp
        by_cases h : k' = k
        · subst h
          simp [insertA, hpb, lookupA_cons, hp, ih]
        · simp [insertA, hpb, lookupA_cons, ih, h]

theorem mem_insertA {β : Type} (m : List (Str × β)) (k : Str) (v : β) (q : Str × β) :
    q ∈ insertA m k v → q = (k, v) ∨ q ∈ m := by
  induction m with
  | nil => simp [insertA]
  | cons p rest ih =>
      by_cases hp : p.1 = k
      · have hpb : (p.1 == k) = true := beq_iff_eq.mpr hp
        simp only [insertA, hpb, if_true, List.mem_cons]
        rintro (h | h)
        · exact Or.inl h
        · exact Or.inr (Or.inr h)
      · have hpb : (p.1 == k) = false := beq_eq_false_iff_ne.mpr hp
        simp only [insertA, hpb, Bool.false_eq_true, if_false, List.mem_cons]
        rintro (h | h)
        · exact Or.inr (Or.inl h)
        · rcases ih h with h' | h'
          · exact Or.inl h'
          · exact Or.inr (Or.inr h')

theorem mem_insertSet (l : List Str) (x y : Str) :
    y ∈ insertSet l x → y ∈ l ∨ y = x := by
  unfold insertSet
  split
  · exact fun h => Or.inl h
  · intro h
    rcases List.mem_append.mp h with h | h
    · exact Or.inl h
    · exact Or.inr (List.mem_singleton.mp h)

theorem subset_insertSet (l : List Str) (x y : Str) (h : y ∈ l) : y ∈ insertSet l x := by
  unfold insertSet
  split
  · exact h
  · exact List.mem_append.mpr (Or.inl h)

theorem self_mem_insertSet (l : List Str) (x : Str) : x ∈ insertSet l x := by
  unfold insertSet
  split
  · next h => exact List.mem_of_elem_eq_true h
  · exact List.mem_append.mpr (Or.inr (List.mem_singleton.mpr rfl))

theorem lookupA_mem {β : Type} (m : List (Str × β)) (k : Str) (v : β)
    (h : lookupA m k = some v) : ∃ e, e ∈ m ∧ e.1 = k ∧ e.2 = v := by
  unfold lookupA at h
  rcases Option.map_eq_some'.mp h with ⟨e, he, hev⟩
  have hk : (e.1 == k) = true := by simpa using List.find?_some he
  exact ⟨e, List.mem_of_find?_eq_some he, beq_iff_eq.mp hk, hev⟩

theorem mem_pushMulti (m : List (Str × List (Str × Str))) (k : Str) (v : Str × Str)
    (e : Str × List (Str × Str)) (he : e ∈ pushMulti m k v) :
    (∀ q ∈ e.2, q ∈ v :: (m.map Prod.snd).flatten) ∨ e ∈ m := by
  unfold pushMulti at he
  split at he
  · next l hl =>
      rcases mem_insertA _ _ _ _ he with h | h
      · subst h
        left
        intro q hq
        rcases List.mem_append.mp hq with h | h
        · rcases lookupA_mem _ _ _ hl with ⟨e', he', hk, hv⟩
          refine List.mem_cons.mpr (Or.inr ?_)
          refine List.mem_flatten.mpr ⟨e'.2, ?_, hv ▸ h⟩
          exact List.mem_map.mpr ⟨e', he', rfl⟩
        · exact List.mem_cons.mpr (Or.inl (List.mem_singleton.mp h))
      · exact Or.inr h
  · rcases List.mem_append.mp he with h | h
    · exact Or.inr h
    · left
      have : e = (k, [v]) := List.mem_singleton.mp h
      subst this
      intro q hq
      exact List.mem_cons.mpr (Or.inl (List.mem_singleton.mp hq))

/-! ## Lemmas: trimming -/

theorem dropWhile_idem (p : Char → Bool) (l : Str) :
    (l.dropWhile p).dropWhile p = l.dropWhile p := by
  induction l with
  | nil => rfl
  | cons c t ih =>
      by_cases h : p c
      · simp [List.dropWhile_cons, h, ih]
      · simp [List.dropWhile_cons, h]

theorem trimRight_idem (s : Str) : trimRight (trimRight s) = trimRight s := by
  unfold trimRight
  rw [List.reverse_reverse, dropWhile_idem]

theorem trimLeft_trimRight_comm (s : Str) :
    trimLeft (trimRight s) = trimRight (trimLeft s) := by
  induction s with
  | nil => rfl
  | cons c t ih =>
      by_cases h : isWhitespaceRust c
      · have h1 : trimLeft (c :: t) = trimLeft t := by
          simp [trimLeft, List.dropWhile_cons, h]
        rw [h1]
        unfold trimRight
        rw [List.reverse_cons, List.dropWhile_append]
        by_cases h2 : (t.reverse.dropWhile isWhitespaceRust).isEmpty
        · have h3 : t.reverse.dropWhile isWhitespaceRust = [] :=
            List.isEmpty_iff.mp h2
          have h4 : ∀ x ∈ t, isWhitespaceRust x = true := by
            intro x hx
            exact List.dropWhile_eq_nil_iff.mp h3 x (List.mem_reverse.mpr hx)
          have h5 : trimLeft t = [] := List.dropWhile_eq_nil_iff.mpr h4
          have h6 : List.dropWhile isWhitespaceRust [c] = [] := by
            simp [List.dropWhile_cons, h]
          rw [if_pos h2, h6, List.reverse_nil, h5]
          rfl
        · rw [if_neg h2, List.reverse_append]
          have h7 : trimLeft
              (List.reverse [c] ++ (t.reverse.dropWhile isWhitespaceRust).reverse)
              = trimLeft ((t.reverse.dropWhile isWhitespaceRust).reverse) := by
            simp [trimLeft, List.dropWhile_cons, h]
          rw [h7]
          exact ih
      · have h1 : trimLeft (c :: t) = c :: t := by
          simp [trimLeft, List.dropWhile_cons, h]
        rw [h1]
        unfold trimRight
        rw [List.reverse_cons, List.dropWhile_append]
        by_cases h2 : (t.reverse.dropWhile isWhitespaceRust).isEmpty
        · have h6 : List.dropWhile isWhitespaceRust [c] = [c] := by
            simp [List.dropWhile_cons, h]
          rw [if_pos h2, h6]
          simp [trimLeft, List.dropWhile_cons, h]
        · rw [if_neg h2, List.reverse_append]
          simp [trimLeft, List.dropWhile_cons, h]

theorem trim_trimRight (s : Str) : trim (trimRight s) = trim s := by
  unfold trim
  rw [trimLeft_trimRight_comm, trimRight_idem, ← trimLeft_trimRight_comm]

theorem trimLeft_idem (s : Str) : trimLeft (trimLeft s) = trimLeft s :=
  dropWhile_idem _ s

theorem trim_idem (s : Str) : trim (trim s) = trim s := by
  unfold trim
  rw [trimLeft_trimRight_comm, trimRight_idem, trimLeft_idem]

theorem trimLeft_append_of_fixed (a s : Str) (ha : trimLeft a = a) (hne : a ≠ []) :
    trimLeft (a ++ s) = a ++ s := by
  cases a with
  | nil => exact absurd rfl hne
  | cons c t =>
      have hc : isWhitespaceRust c = false := by
        by_contra hcc
        have hcc' : isWhitespaceRust c = true := by
          revert hcc
          cases isWhitespaceRust c <;> simp
        have heq : trimLeft (c :: t) = trimLeft t := by
          simp [trimLeft, List.dropWhile_cons, hcc']
        rw [ha] at heq
        have hlen := congrArg List.length heq
        have hle : (trimLeft t).length ≤ t.length :=
          (List.dropWhile_sublist isWhitespaceRust).length_le
        simp only [List.length_cons] at hlen
        omega
      simp [trimLeft, List.dropWhile_cons, hc]

theorem trimRight_append_of_fixed (a s : Str) (ha : trimRight a = a) :
    trimRight (a ++ s) = a ++ trimRight s := by
  have ha' : a.reverse.dropWhile isWhitespaceRust = a.reverse := by
    have h0 := congrArg List.reverse ha
    rwa [trimRight, List.reverse_reverse] at h0
  unfold trimRight
  rw [List.reverse_append, List.dropWhile_append]
  by_cases h2 : (s.reverse.dropWhile isWhitespaceRust).isEmpty
  · have h3 : s.reverse.dropWhile isWhitespaceRust = [] := List.isEmpty_iff.mp h2
    rw [if_pos h2, ha', h3, List.reverse_nil, List.reverse_reverse,
      List.append_nil]
  · rw [if_neg h2, List.reverse_append, List.reverse_reverse]

theorem trim_append_fixed (a s : Str) (hl : trimLeft a = a) (hr : trimRight a = a)
    (hne : a ≠ []) : trim (a ++ s) = a ++ trimRight s := by
  unfold trim
  rw [trimLeft_append_of_fixed a s hl hne, trimRight_append_of_fixed a s hr]

/-! ## Lemmas: trie exact lookup vs insert -/

theorem findChild_setChild (cs : List (Char × Trie)) (c x : Char) (t : Trie) :
    findChild (setChild cs c t) x = if x = c then some t else findChild cs x := by
  induction cs with
  | nil =>
      by_cases h : x = c
      · simp [setChild, findChild, List.find?, h]
      · have hcx : ¬(c = x) := fun h' => h h'.symm
        simp [setChild, findChild, List.find?, beq_eq_false_iff_ne.mpr hcx, h]
  | cons p rest ih =>
      by_cases hp : p.1 = c
      · have hpb : (p.1 == c) = true := beq_iff_eq.mpr hp
        by_cases h : x = c
        · subst h
          simp [setChild, hpb, findChild, List.find?_cons]
        · have hcx : ¬(c = x) := fun h' => h h'.symm
          have hpx : ¬(p.1 = x) := fun h' => h (h'.symm.trans hp)
          simp [setChild, hpb, findChild, List.find?_cons,
            beq_eq_false_iff_ne.mpr hcx, beq_eq_false_iff_ne.mpr hpx, h]
      · have hpb : (p.1 == c) = false := beq_eq_false_iff_ne.mpr hp
        by_cases hx : p.1 = x
        · have hxb : (p.1 == x) = true := beq_iff_eq.mpr hx
          have hxc : ¬(x = c) := fun h' => hp (hx.trans h')
          simp [setChild, hpb, findChild, List.find?_cons, hxb, hxc]
        · have hxb : (p.1 == x) = false := beq_eq_false_iff_ne.mpr hx
          have ih' := ih
          simp only [findChild] at ih'
          simp only [setChild, hpb, Bool.false_eq_true, if_false, findChild,
            List.find?_cons, hxb]
          exact ih'

theorem walk_cons (t : Trie) (c : Char) (w : Str) :
    t.walk (c :: w) = match findChild t.children c with
      | some n => n.walk w
      | none => none := rfl

theorem get_cons (t : Trie) (c : Char) (w : Str) :
    t.get (c :: w) = match findChild t.children c with
      | some n => n.get w
      | none => none := by
  unfold Trie.get
  rw [walk_cons]
  cases findChild t.children c <;> rfl

theorem get_empty (w : Str) : Trie.empty.get w = none := by
  cases w with
  | nil => rfl
  | cons c w' => rw [get_cons]; rfl

theorem get_insert (w : Str) (t : Trie) (value : Str) (u : Str) :
    (t.insert w value).get u = if u = w then some value else t.get u := by
  induction w generalizing t u with
  | nil =>
      cases u with
      | nil => simp [Trie.insert, Trie.get, Trie.walk, Trie.isEnd, Trie.val]
      | cons c u' =>
          have hne : ¬(c :: u' = ([] : Str)) := by simp
          rw [if_neg hne, get_cons, get_cons]
          rfl
  | cons b w' ih =>
      cases u with
      | nil =>
          have hne : ¬(([] : Str) = b :: w') := by simp
          rw [if_neg hne]
          simp [Trie.insert, Trie.get, Trie.walk, Trie.isEnd, Trie.val]
      | cons c u' =>
          rw [get_cons]
          have hch : findChild (t.insert (b :: w') value).children c =
              findChild (setChild t.children b
                (Trie.insert ((findChild t.children b).getD Trie.empty) w' value)) c := by
            rfl
          rw [hch, findChild_setChild]
          by_cases hc : c = b
          · subst hc
            rw [if_pos rfl]
            show (((findChild t.children c).getD Trie.empty).insert w' value).get u' = _
            have hiff : (c :: u' = c :: w') ↔ (u' = w') := by simp
            by_cases hu : u' = w'
            · rw [ih, if_pos hu, if_pos (hiff.mpr hu)]
            · rw [ih, if_neg hu, if_neg (fun h => hu (hiff.mp h))]
              cases hfc : findChild t.children c with
              | some n => rw [get_cons, hfc]; rfl
              | none =>
                  rw [get_cons, hfc]
                  simp [Option.getD, get_empty]
          · rw [if_neg hc]
            have hne : ¬(c :: u' = b :: w') := by simp [hc]
            rw [if_neg hne, get_cons]

/-! ## Lemmas: longest-prefix matching -/

theorem utf8Len_cons (c : Char) (s : Str) :
    utf8Len (c :: s) = c.utf8Size + utf8Len s := by
  simp [utf8Len]

theorem utf8Len_append (a b : Str) : utf8Len (a ++ b) = utf8Len a + utf8Len b := by
  simp [utf8Len]

theorem walk_append (t : Trie) (a b : Str) :
    t.walk (a ++ b) = match t.walk a with
      | some n => n.walk b
      | none => none := by
  induction a generalizing t with
  | nil => simp [Trie.walk]
  | cons c a' ih =>
      rw [List.cons_append, walk_cons, walk_cons]
      cases findChild t.children c with
      | some n => exact ih n
      | none => rfl

theorem get_append_of_walk (root t : Trie) (a b : Str)
    (hw : root.walk a = some t) : root.get (a ++ b) = t.get b := by
  unfold Trie.get
  rw [walk_append, hw]

theorem walk_snoc (root t n : Trie) (consumed : Str) (c : Char)
    (hw : root.walk consumed = some t) (hfc : findChild t.children c = some n) :
    root.walk (consumed ++ [c]) = some n := by
  rw [walk_append, hw]
  simp [Trie.walk, hfc]

theorem prefix_long_split (a : Str) (c : Char) (r w : Str)
    (h : w <+: a ++ c :: r) : w <+: a ∨ ∃ w', w = a ++ c :: w' ∧ w' <+: r := by
  by_cases hlen : w.length ≤ a.length
  · exact Or.inl (List.prefix_of_prefix_length_le h (List.prefix_append a (c :: r)) hlen)
  · right
    have haw : a <+: w :=
      List.prefix_of_prefix_length_le (List.prefix_append a (c :: r)) h (le_of_not_le hlen)
    rcases haw with ⟨u, hu⟩
    rcases h with ⟨tail, htail⟩
    have hu' : u ++ tail = c :: r := by
      have : a ++ (u ++ tail) = a ++ c :: r := by
        rw [← List.append_assoc, hu, htail]
      exact List.append_cancel_left this
    cases u with
    | nil =>
        exfalso
        apply hlen
        rw [← hu, List.append_nil]
    | cons c' u'' =>
        have hc' : c' = c := by
          have := congrArg List.head? hu'
          simpa using this
        subst hc'
        refine ⟨u'', by rw [← hu], ⟨tail, ?_⟩⟩
        simpa using hu'

theorem matchspec_stop (root t : Trie) (consumed : Str) (c : Char) (rest : Str)
    (best : Option (Str × Str × Nat)) (hw : root.walk consumed = some t)
    (hfc : findChild t.children c = none) (hinv : MatchSpec root consumed best) :
    MatchSpec root (consumed ++ c :: rest) best := by
  have hlong : ∀ w, w <+: consumed ++ c :: rest → ¬(w <+: consumed) →
      root.get w = none := by
    intro w hpre hnot
    rcases prefix_long_split consumed c rest w hpre with h | ⟨w', hw', _⟩
    · exact absurd h hnot
    · subst hw'
      rw [get_append_of_walk root t _ _ hw, get_cons, hfc]
  rcases best with _ | ⟨m, v, len⟩
  · intro w hne hpre
    by_cases hc : w <+: consumed
    · exact hinv w hne hc
    · exact hlong w hpre hc
  · obtain ⟨hne, hpre, hget, hlen, hmax⟩ := hinv
    refine ⟨hne, hpre.trans (List.prefix_append consumed (c :: rest)), hget, hlen, ?_⟩
    intro w hwne hwpre hwsome
    by_cases hc : w <+: consumed
    · exact hmax w hwne hc hwsome
    · rw [hlong w hwpre hc] at hwsome
      simp at hwsome

theorem matchspec_extend (root t n : Trie) (consumed : Str) (c : Char)
    (curLen : Nat) (best : Option (Str × Str × Nat))
    (hw : root.walk consumed = some t) (hfc : findChild t.children c = some n)
    (hlen : curLen = utf8Len consumed) (hinv : MatchSpec root consumed best) :
    MatchSpec root (consumed ++ [c])
      (if n.isEnd then
        match n.val with
        | some v => some (consumed ++ [c], v, curLen + c.utf8Size)
        | none => best
       else best) := by
  have hwn : root.walk (consumed ++ [c]) = some n := walk_snoc root t n consumed c hw hfc
  have hget : root.get (consumed ++ [c]) = if n.isEnd then n.val else none := by
    unfold Trie.get
    rw [hwn]
  have hkeep : (if n.isEnd then n.val else none) = none →
      MatchSpec root (consumed ++ [c]) best := by
    intro hnone
    have hlong : ∀ w, w <+: consumed ++ [c] → ¬(w <+: consumed) →
        root.get w = none := by
      intro w hpre hnot
      rcases prefix_long_split consumed c [] w hpre with h | ⟨w', hw', hw''⟩
      · exact absurd h hnot
      · have : w' = [] := List.prefix_nil.mp hw''
        subst this
        subst hw'
        rw [hget]
        exact hnone
    rcases best with _ | ⟨m, v, len⟩
    · intro w hne hpre
      by_cases hc : w <+: consumed
      · exact hinv w hne hc
      · exact hlong w hpre hc
    · obtain ⟨hne, hpre, hget', hlen', hmax⟩ := hinv
      refine ⟨hne, hpre.trans (List.prefix_append consumed [c]), hget', hlen', ?_⟩
      intro w hwne hwpre hwsome
      by_cases hc : w <+: consumed
      · exact hmax w hwne hc hwsome
      · rw [hlong w hwpre hc] at hwsome
        simp at hwsome
  cases he : n.isEnd with
  | false =>
      simp only [if_false, Bool.false_eq_true]
      exact hkeep (by rw [he] at hget ⊢; simp)
  | true =>
      simp only [if_true]
      cases hv : n.val with
      | none =>
          exact hkeep (by rw [he, hv] at hget ⊢; simp)
      | some v =>
          refine ⟨by simp, List.prefix_refl _, ?_, ?_, ?_⟩
          · rw [hget, he, hv]
            simp
          · rw [hlen, utf8Len_append]
            simp [utf8Len]
          · intro w _ hwpre _
            exact hwpre.length_le

theorem aux_spec : ∀ (text : Str) (t root : Trie) (consumed : Str) (curLen : Nat)
    (best : Option (Str × Str × Nat)),
    root.walk consumed = some t →
    curLen = utf8Len consumed →
    MatchSpec root consumed best →
    MatchSpec root (consumed ++ text) (flpAux text t consumed curLen best) := by
  intro text
  induction text with
  | nil =>
      intro t root consumed curLen best _ _ hinv
      simpa [flpAux] using hinv
  | cons c rest ih =>
      intro t root consumed curLen best hw hlen hinv
      cases hfc : findChild t.children c with
      | none =>
          have hr : flpAux (c :: rest) t consumed curLen best = best := by
            simp [flpAux, hfc]
          rw [hr]
          exact matchspec_stop root t consumed c rest best hw hfc hinv
      | some n =>
          have hr : flpAux (c :: rest) t consumed curLen best =
              flpAux rest n (consumed ++ [c]) (curLen + c.utf8Size)
                (if n.isEnd then
                  match n.val with
                  | some v => some (consumed ++ [c], v, curLen + c.utf8Size)
                  | none => best
                 else best) := by
            simp [flpAux, hfc]
          rw [hr]
          have hwn : root.walk (consumed ++ [c]) = some n :=
            walk_snoc root t n consumed c hw hfc
          have hlen' : curLen + c.utf8Size = utf8Len (consumed ++ [c]) := by
            rw [hlen, utf8Len_append]
            simp [utf8Len]
          have hinv' := matchspec_extend root t n consumed c curLen best hw hfc hlen hinv
          have := ih n root (consumed ++ [c]) (curLen + c.utf8Size) _ hwn hlen' hinv'
          rw [List.append_assoc] at this
          simpa using this

theorem findLongest_spec (t : Trie) (text : Str) :
    MatchSpec t text (t.findLongest text) := by
  have h0 : MatchSpec t [] (none : Option (Str × Str × Nat)) := by
    intro w hne hpre
    exact absurd (List.prefix_nil.mp hpre) hne
  have := aux_spec text t t [] 0 none rfl rfl h0
  simpa [Trie.findLongest] using this

theorem findLongest_get (t : Trie) (text m v : Str) (len : Nat)
    (h : t.findLongest text = some (m, v, len)) : t.get m = some v := by
  have := findLongest_spec t text
  rw [h] at this
  exact this.2.2.1

/-! ## Lemmas: matches that are stable under arbitrary continuations -/

theorem flpAux_children_nil (text : Str) (t : Trie) (consumed : Str) (curLen : Nat)
    (best : Option (Str × Str × Nat)) (h : t.children = []) :
    flpAux text t consumed curLen best = best := by
  cases text with
  | nil => rfl
  | cons c rest => simp [flpAux, h, findChild, List.find?]

theorem flpAux_leaf : ∀ (m : Str) (t : Trie) (consumed : Str) (curLen : Nat)
    (best : Option (Str × Str × Nat)) (n : Trie) (v : Str) (rest : Str),
    m ≠ [] → t.walk m = some n → n.children = [] → n.isEnd = true →
    n.val = some v →
    flpAux (m ++ rest) t consumed curLen best =
      some (consumed ++ m, v, curLen + utf8Len m) := by
  intro m
  induction m with
  | nil => intro _ _ _ _ _ _ _ hne _ _ _; exact absurd rfl hne
  | cons c m' ih =>
      intro t consumed curLen best n v rest _ hwalk hch hend hval
      rw [walk_cons] at hwalk
      cases hfc : findChild t.children c with
      | none => rw [hfc] at hwalk; exact absurd hwalk (by simp)
      | some n1 =>
          rw [hfc] at hwalk
          have hr : flpAux ((c :: m') ++ rest) t consumed curLen best =
              flpAux (m' ++ rest) n1 (consumed ++ [c]) (curLen + c.utf8Size)
                (if n1.isEnd then
                  match n1.val with
                  | some v' => some (consumed ++ [c], v', curLen + c.utf8Size)
                  | none => best
                 else best) := by
            simp [flpAux, hfc]
          rw [hr]
          cases m' with
          | nil =>
              have hn1 : n1 = n := by simpa [Trie.walk] using hwalk
              subst hn1
              rw [List.nil_append, flpAux_children_nil rest n1 _ _ _ hch, hend,
                hval]
              simp [utf8Len_cons, utf8Len]
          | cons c2 m'' =>
              rw [ih n1 (consumed ++ [c]) (curLen + c.utf8Size) _ n v rest
                (by simp) hwalk hch hend hval]
              rw [List.append_assoc, List.singleton_append, utf8Len_cons,
                utf8Len_cons, utf8Len_cons, Nat.add_assoc]

theorem findLongest_leaf (t : Trie) (m v rest : Str) (hne : m ≠ [])
    (h : (t.walk m).map
      (fun n => n.children.isEmpty && n.isEnd && (n.val == some v)) = some true) :
    t.findLongest (m ++ rest) = some (m, v, utf8Len m) := by
  cases hw : t.walk m with
  | none => rw [hw] at h; exact absurd h (by simp)
  | some n =>
      rw [hw] at h
      simp only [Option.map_some', Option.some.injEq, Bool.and_eq_true,
        List.isEmpty_iff, beq_iff_eq] at h
      unfold Trie.findLongest
      rw [flpAux_leaf m t [] 0 none n v rest hne hw h.1.1 h.1.2 h.2]
      simp

theorem okBelow_child (k : Nat) (t n : Trie) (v : Str) (c : Char)
    (hok : okBelow (k + 1) t v = true) (hfc : findChild t.children c = some n) :
    okBelow k n v = true := by
  unfold okBelow at hok
  have h2 := (Bool.and_eq_true _ _ |>.mp hok).2
  unfold findChild at hfc
  rcases Option.map_eq_some'.mp hfc with ⟨e, he, hev⟩
  have := (List.all_eq_true.mp h2) e (List.mem_of_find?_eq_some he)
  rwa [hev] at this

theorem okBelow_terminal (k : Nat) (t : Trie) (v : Str)
    (hok : okBelow k t v = true) (hend : t.isEnd = true) : t.val = some v := by
  cases k with
  | zero =>
      unfold okBelow at hok
      have := (Bool.and_eq_true _ _ |>.mp hok).2
      rw [hend] at this
      simpa using this
  | succ k' =>
      unfold okBelow at hok
      have := (Bool.and_eq_true _ _ |>.mp hok).1
      rw [hend] at this
      simpa using this

theorem okRun : ∀ (rest : Str) (t : Trie) (k : Nat) (v : Str) (consumed : Str)
    (curLen : Nat) (w0 : Str) (l0 : Nat),
    okBelow k t v = true →
    ∃ w l, flpAux rest t consumed curLen (some (w0, v, l0)) = some (w, v, l) := by
  intro rest
  induction rest with
  | nil => intro t k v consumed curLen w0 l0 _; exact ⟨w0, l0, rfl⟩
  | cons c rs ih =>
      intro t k v consumed curLen w0 l0 hok
      cases hfc : findChild t.children c with
      | none =>
          refine ⟨w0, l0, ?_⟩
          simp [flpAux, hfc]
      | some n =>
          cases k with
          | zero =>
              exfalso
              unfold okBelow at hok
              have h1 := (Bool.and_eq_true _ _ |>.mp hok).1
              have : t.children = [] := List.isEmpty_iff.mp h1
              rw [this] at hfc
              simp [findChild, List.find?] at hfc
          | succ k' =>
              have hokn := okBelow_child k' t n v c hok hfc
              have hr : flpAux (c :: rs) t consumed curLen (some (w0, v, l0)) =
                  flpAux rs n (consumed ++ [c]) (curLen + c.utf8Size)
                    (if n.isEnd then
                      match n.val with
                      | some v' => some (consumed ++ [c], v', curLen + c.utf8Size)
                      | none => some (w0, v, l0)
                     else some (w0, v, l0)) := by
                simp [flpAux, hfc]
              rw [hr]
              cases he : n.isEnd with
              | false =>
                  simp only [Bool.false_eq_true, if_false]
                  exact ih n k' v _ _ w0 l0 hokn
              | true =>
                  have hv := okBelow_terminal k' n v hokn he
                  simp only [if_true, hv]
                  exact ih n k' v _ _ (consumed ++ [c]) (curLen + c.utf8Size) hokn

theorem flpAux_value : ∀ (m : Str) (t : Trie) (consumed : Str) (curLen : Nat)
    (best : Option (Str × Str × Nat)) (n : Trie) (v : Str) (k : Nat) (rest : Str),
    m ≠ [] → t.walk m = some n → n.isEnd = true → okBelow k n v = true →
    ∃ w l, flpAux (m ++ rest) t consumed curLen best = some (w, v, l) := by
  intro m
  induction m with
  | nil => intro _ _ _ _ _ _ _ _ hne _ _ _; exact absurd rfl hne
  | cons c m' ih =>
      intro t consumed curLen best n v k rest _ hwalk hend hok
      rw [walk_cons] at hwalk
      cases hfc : findChild t.children c with
      | none => rw [hfc] at hwalk; exact absurd hwalk (by simp)
      | some n1 =>
          rw [hfc] at hwalk
          have hr : flpAux ((c :: m') ++ rest) t consumed curLen best =
              flpAux (m' ++ rest) n1 (consumed ++ [c]) (curLen + c.utf8Size)
                (if n1.isEnd then
                  match n1.val with
                  | some v' => some (consumed ++ [c], v', curLen + c.utf8Size)
                  | none => best
                 else best) := by
            simp [flpAux, hfc]
          rw [hr]
          cases m' with
          | nil =>
              have hn1 : n1 = n := by simpa [Trie.walk] using hwalk
              subst hn1
              have hv := okBelow_terminal k n1 v hok hend
              rw [List.nil_append, hend, hv]
              simp only [if_true]
              exact okRun rest n1 k v _ _ _ _ hok
          | cons c2 m'' =>
              exact ih n1 (consumed ++ [c]) (curLen + c.utf8Size) _ n v k rest
                (by simp) hwalk hend hok

theorem findLongest_value (t : Trie) (m v : Str) (k : Nat) (rest : Str)
    (hne : m ≠ [])
    (h : (t.walk m).map (fun n => n.isEnd && okBelow k n v) = some true) :
    (t.findLongest (m ++ rest)).map (fun x => x.2.1) = some v := by
  cases hw : t.walk m with
  | none => rw [hw] at h; exact absurd h (by simp)
  | some n =>
      rw [hw] at h
      simp only [Option.map_some', Option.some.injEq, Bool.and_eq_true] at h
      rcases flpAux_value m t [] 0 none n v k rest hne hw h.1 h.2 with ⟨w, l, hfl⟩
      unfold Trie.findLongest
      rw [hfl]
      rfl

theorem findLongest_head_none (t : Trie) (c : Char) (rest : Str)
    (h : findChild t.children c = none) : t.findLongest (c :: rest) = none := by
  unfold Trie.findLongest
  simp [flpAux, h]

/-! ## Lemmas: index construction invariants -/

theorem foldl_preserve {α β : Type} (P : β → Prop) (f : β → α → β) :
    ∀ (l : List α) (b : β), (∀ b' a, a ∈ l → P b' → P (f b' a)) → P b →
      P (l.foldl f b) := by
  intro l
  induction l with
  | nil => intro b _ hb; exact hb
  | cons a rs ih =>
      intro b hstep hb
      exact ih (f b a) (fun b' x hx => hstep b' x (List.mem_cons.mpr (Or.inr hx)))
        (hstep b a (List.mem_cons.mpr (Or.inl rfl)) hb)

theorem ctpProv_insertA (m : List (Str × Str)) (S : List Str) (k v : Str)
    (hm : ∀ q ∈ m, q.2 ∈ S) (hv : v ∈ S) : ∀ q ∈ insertA m k v, q.2 ∈ S := by
  intro q hq
  rcases mem_insertA m k v q hq with h | h
  · rw [h]
    exact hv
  · exact hm q h

theorem dtcProv_pushMulti (m : List (Str × List (Str × Str))) (S : List Str)
    (k : Str) (pc : Str × Str) (hm : ∀ e ∈ m, ∀ q ∈ e.2, q.1 ∈ S)
    (hp : pc.1 ∈ S) : ∀ e ∈ pushMulti m k pc, ∀ q ∈ e.2, q.1 ∈ S := by
  intro e he q hq
  rcases mem_pushMulti m k pc e he with h | h
  · rcases List.mem_cons.mp (h q hq) with h' | h'
    · rw [h']
      exact hp
    · rcases List.mem_flatten.mp h' with ⟨l, hl, hql⟩
      rcases List.mem_map.mp hl with ⟨e', he', hrfl⟩
      exact hm e' he' q (hrfl ▸ hql)
  · exact hm e h q hq

theorem lookupA_exists_insertA (m : List (Str × Str)) (k v c : Str)
    (h : ∃ p, lookupA m c = some p) :
    ∃ p, lookupA (insertA m k v) c = some p := by
  rw [lookupA_insertA]
  by_cases hc : c = k
  · exact ⟨v, if_pos hc ▸ rfl⟩
  · rw [if_neg hc]
    exact h

theorem lookupA_self_insertA (m : List (Str × Str)) (k v : Str) :
    lookupA (insertA m k v) k = some v := by
  rw [lookupA_insertA, if_pos rfl]

theorem buildStep_provinces (idx : RegionIndex) (r : Region) :
    (buildStep idx r).provinces = insertSet idx.provinces r.province := by
  cases hd : r.district <;> simp [buildStep, hd]

theorem buildStep_cities (idx : RegionIndex) (r : Region) :
    (buildStep idx r).cities = insertSet idx.cities r.city := by
  cases hd : r.district <;> simp [buildStep, hd]

theorem buildStep_ctp (idx : RegionIndex) (r : Region) :
    (buildStep idx r).city_to_province =
      (if ['市'].isSuffixOf r.city then
        insertA (insertA idx.city_to_province r.city r.province)
          (trimEndMatches r.city ['市']) r.province
      else insertA idx.city_to_province r.city r.province) := by
  cases hd : r.district <;> simp [buildStep, hd]

theorem buildStep_dtc_none (idx : RegionIndex) (r : Region)
    (hd : r.district = none) :
    (buildStep idx r).district_to_city = idx.district_to_city := by
  simp [buildStep, hd]

theorem buildStep_dtc_some (idx : RegionIndex) (r : Region) (d : Str)
    (hd : r.district = some d) :
    (buildStep idx r).district_to_city = districtSuffixes.foldl
      (fun m suf =>
        if [suf].isSuffixOf d then
          let short := trimEndMatches d [suf]
          if !short.isEmpty then pushMulti m short (r.province, r.city) else m
        else m)
      (pushMulti idx.district_to_city d (r.province, r.city)) := by
  simp [buildStep, hd]

theorem buildStep_inv (idx : RegionIndex) (r : Region)
    (h : CtpProv idx ∧ DtcProv idx ∧ CityKeys idx) :
    CtpProv (buildStep idx r) ∧ DtcProv (buildStep idx r) ∧
      CityKeys (buildStep idx r) := by
  obtain ⟨hctp, hdtc, hck⟩ := h
  have hprovsub : ∀ p, p ∈ idx.provinces → p ∈ insertSet idx.provinces r.province :=
    fun p hp => subset_insertSet _ _ _ hp
  have hprovself : r.province ∈ insertSet idx.provinces r.province :=
    self_mem_insertSet _ _
  have hctp1 : ∀ q ∈ insertA idx.city_to_province r.city r.province,
      q.2 ∈ insertSet idx.provinces r.province :=
    ctpProv_insertA _ _ _ _ (fun q hq => hprovsub _ (hctp q hq)) hprovself
  refine ⟨?_, ?_, ?_⟩
  · intro q hq
    rw [buildStep_ctp] at hq
    rw [buildStep_provinces]
    revert hq
    split
    · exact fun hq => ctpProv_insertA _ _ _ _ hctp1 hprovself q hq
    · exact fun hq => hctp1 q hq
  · intro e he q hq
    rw [buildStep_provinces]
    cases hd : r.district with
    | none =>
        rw [buildStep_dtc_none idx r hd] at he
        exact hprovsub _ (hdtc e he q hq)
    | some d =>
        rw [buildStep_dtc_some idx r d hd] at he
        have hdtc1 : ∀ e ∈ pushMulti idx.district_to_city d (r.province, r.city),
            ∀ q ∈ e.2, q.1 ∈ insertSet idx.provinces r.province :=
          dtcProv_pushMulti _ _ _ _
            (fun e he q hq => hprovsub _ (hdtc e he q hq)) hprovself
        refine foldl_preserve
          (fun (m : List (Str × List (Str × Str))) =>
            ∀ e ∈ m, ∀ q ∈ e.2, q.1 ∈ insertSet idx.provinces r.province)
          _ districtSuffixes _ ?_ hdtc1 e he q hq
        intro m suf _ hm
        dsimp only
        split
        · split
          · exact dtcProv_pushMulti _ _ _ _ hm hprovself
          · exact hm
        · exact hm
  · intro c hc
    rw [buildStep_cities] at hc
    rw [buildStep_ctp]
    have hbase : ∃ p, lookupA (insertA idx.city_to_province r.city r.province) c
        = some p := by
      rcases mem_insertSet _ _ _ hc with h' | h'
      · exact lookupA_exists_insertA _ _ _ _ (hck c h')
      · subst h'
        exact ⟨r.province, lookupA_self_insertA _ _ _⟩
    split
    · exact lookupA_exists_insertA _ _ _ _ hbase
    · exact hbase

theorem build_inv (regions : List Region) :
    CtpProv (RegionIndex.build regions) ∧ DtcProv (RegionIndex.build regions) ∧
      CityKeys (RegionIndex.build regions) := by
  unfold RegionIndex.build
  refine foldl_preserve
    (fun idx => CtpProv idx ∧ DtcProv idx ∧ CityKeys idx) buildStep regions _
    (fun idx r _ h => buildStep_inv idx r h) ?_
  refine ⟨?_, ?_, ?_⟩
  · intro q hq
    simp at hq
  · intro e he
    simp at he
  · intro c hc
    simp at hc

/-! ## Lemmas: trie values come from the inserted sets -/

theorem trieVals_empty (S : List Str) : TrieVals Trie.empty S := by
  intro u v h
  rw [get_empty] at h
  exact absurd h (by simp)

theorem trieVals_insert (t : Trie) (S : List Str) (w v : Str)
    (ht : TrieVals t S) (hv : v ∈ S) : TrieVals (t.insert w v) S := by
  intro u x h
  rw [get_insert] at h
  by_cases hu : u = w
  · rw [if_pos hu] at h
    exact Option.some.inj h ▸ hv
  · rw [if_neg hu] at h
    exact ht u x h

theorem cityTrieVals (regions : List Region) :
    TrieVals (AddressParser.new regions).city_trie
      (RegionIndex.build regions).cities := by
  show TrieVals ((RegionIndex.build regions).cities.foldl _ Trie.empty) _
  refine foldl_preserve (fun t => TrieVals t (RegionIndex.build regions).cities)
    _ _ _ ?_ (trieVals_empty _)
  intro t c hc ht
  dsimp only
  split
  · exact trieVals_insert _ _ _ _ (trieVals_insert _ _ _ _ ht hc) hc
  · exact trieVals_insert _ _ _ _ ht hc

theorem provTrieVals (regions : List Region) :
    TrieVals (AddressParser.new regions).province_trie
      (RegionIndex.build regions).provinces := by
  show TrieVals ((RegionIndex.build regions).provinces.foldl _ Trie.empty) _
  refine foldl_preserve
    (fun t => TrieVals t (RegionIndex.build regions).provinces) _ _ _ ?_
    (trieVals_empty _)
  intro t p hp ht
  dsimp only
  refine foldl_preserve
    (fun t => TrieVals t (RegionIndex.build regions).provinces) _ _ _ ?_
    (trieVals_insert _ _ _ _ ht hp)
  intro t' q _ ht'
  dsimp only
  split
  · exact trieVals_insert _ _ _ _ ht' hp
  · exact ht'

/-! ## Lemmas: city-province coherence through the parse steps -/

theorem owner_lookup (idx : RegionIndex) (dn : Str) (ps : List (Str × Str))
    (q : Str × Str) (hown : OwnerConsistent idx)
    (h : lookupA idx.district_to_city dn = some ps) (hq : q ∈ ps) :
    lookupA idx.city_to_province q.2 = some q.1 := by
  rcases lookupA_mem _ _ _ h with ⟨e, he, _, hev⟩
  exact hown e he q (hev ▸ hq)

theorem owner_prov (idx : RegionIndex) (dn : Str) (ps : List (Str × Str))
    (q : Str × Str) (hdtc : DtcProv idx)
    (h : lookupA idx.district_to_city dn = some ps) (hq : q ∈ ps) :
    q.1 ∈ idx.provinces := by
  rcases lookupA_mem _ _ _ h with ⟨e, he, _, hev⟩
  exact hdtc e he q (hev ▸ hq)

theorem ctp_value_prov (idx : RegionIndex) (c p : Str) (hctp : CtpProv idx)
    (h : lookupA idx.city_to_province c = some p) : p ∈ idx.provinces := by
  rcases lookupA_mem _ _ _ h with ⟨e, he, _, hev⟩
  exact hev ▸ hctp e he

theorem stage4_good (P : AddressParser) (st : PState)
    (hmun : MunSelf P.index) (hg : GoodSt P.index st) :
    GoodSt P.index (stage4 P st) := by
  unfold stage4
  split
  · next p hp =>
      split
      · next hcond =>
          have hpm : P.index.is_municipality p = true :=
            (Bool.and_eq_true _ _ |>.mp hcond).1
          have hpprov : p ∈ P.index.provinces := hg.2 p hp
          refine ⟨?_, ?_⟩
          · intro c hc
            have : p = c := by simpa using hc
            subst this
            exact ⟨p, rfl, hmun p hpprov hpm⟩
          · intro p' hp'
            have : p = p' := by simpa using hp'
            subst this
            exact hpprov
      · exact hg
  · exact hg

theorem stage2_good (P : AddressParser) (st : PState)
    (hown : OwnerConsistent P.index) (hck : CityKeys P.index)
    (hctp : CtpProv P.index) (hdtc : DtcProv P.index)
    (hcv : TrieVals P.city_trie P.index.cities)
    (hg : GoodSt P.index st) : GoodSt P.index (stage2 P st) := by
  unfold stage2
  simp only []
  split
  · -- prefer-district branch
    split
    · next m dn len heq =>
        refine ⟨?_, ?_⟩
        · intro c hc
          simp only at hc
          revert hc
          split
          · next ps hlook =>
              split
              · next q =>
                  intro hc
                  have hc' : q.2 = c := by simpa using hc
                  subst hc'
                  exact ⟨q.1, rfl,
                    owner_lookup P.index dn [q] q hown hlook (by simp)⟩
              · intro hc
                rcases hg.1 c (by simpa using hc) with ⟨p, hp1, hp2⟩
                exact ⟨p, by simpa using hp1, hp2⟩
          · intro hc
            rcases hg.1 c (by simpa using hc) with ⟨p, hp1, hp2⟩
            exact ⟨p, by simpa using hp1, hp2⟩
        · intro p hp
          simp only at hp
          revert hp
          split
          · next ps hlook =>
              split
              · next q =>
                  intro hp
                  have : q.1 = p := by simpa using hp
                  subst this
                  exact owner_prov P.index dn [q] q hdtc hlook (by simp)
              · intro hp
                exact hg.2 p (by simpa using hp)
          · intro hp
            exact hg.2 p (by simpa using hp)
    · exact hg
  · -- city branch
    split
    · next m cn len heq =>
        split
        · next hvalid =>
            have hcn : cn ∈ P.index.cities :=
              hcv m cn (findLongest_get P.city_trie st.remaining m cn len heq)
            refine ⟨?_, ?_⟩
            · intro c hc
              have hc' : cn = c := by simpa using hc
              subst hc'
              cases hp : st.province with
              | some p =>
                  rw [hp] at hvalid
                  have hl : lookupA P.index.city_to_province cn = some p := by
                    simpa using hvalid
                  exact ⟨p, by simp [hp], hl⟩
              | none =>
                  rcases hck cn hcn with ⟨p, hl⟩
                  exact ⟨p, by simp [hp, hl], hl⟩
            · intro p hp
              simp only at hp
              revert hp
              cases hq : st.province with
              | some p' =>
                  intro hp
                  have : p' = p := by simpa using hp
                  subst this
                  exact hg.2 p' hq
              | none =>
                  intro hp
                  exact ctp_value_prov P.index cn p hctp (by simpa using hp)
        · exact hg
    · exact hg

theorem stage3_good (P : AddressParser) (st : PState)
    (hown : OwnerConsistent P.index) (hctp : CtpProv P.index)
    (hdtc : DtcProv P.index) (hg : GoodSt P.index st) :
    GoodSt P.index (stage3 P st) := by
  unfold stage3
  by_cases hds : st.district.isSome
  · rw [if_pos hds]
    exact hg
  · rw [if_neg hds]
    cases heq : P.district_trie.findLongest st.remaining with
    | none => exact hg
    | some trip =>
        obtain ⟨m, dn, len⟩ := trip
        dsimp only
        cases hc : st.city with
        | some c0 =>
            rcases hg.1 c0 hc with ⟨p0, hp0, hl0⟩
            rw [hp0]
            by_cases hv : (P.index.validate_district c0 dn ||
                validate_district_flexible P c0 dn) = true
            · rw [if_pos hv]
              dsimp only [Option.isNone_some, Bool.false_eq_true, if_false]
              refine ⟨?_, ?_⟩
              · intro c hcc
                have : c0 = c := by simpa using hcc
                subst this
                exact ⟨p0, by simp, hl0⟩
              · intro p' hp'
                have : p0 = p' := by simpa using hp'
                subst this
                exact hg.2 p0 hp0
            · rw [if_neg hv]
              exact hg
        | none =>
            rw [if_pos rfl]
            dsimp only [Option.isNone_none, if_true]
            cases hlook : lookupA P.index.district_to_city dn with
            | none =>
                dsimp only
                cases hq : st.province with
                | some p =>
                    refine ⟨?_, ?_⟩
                    · intro c hcc
                      exact absurd hcc (by simp)
                    · intro p' hp'
                      have : p = p' := by simpa using hp'
                      subst this
                      exact hg.2 p hq
                | none =>
                    refine ⟨?_, ?_⟩
                    · intro c hcc
                      exact absurd hcc (by simp)
                    · intro p' hp'
                      exact absurd hp' (by simp)
            | some ps =>
                cases hps : ps with
                | nil =>
                    dsimp only
                    cases hq : st.province with
                    | some p =>
                        dsimp only [List.find?]
                        refine ⟨?_, ?_⟩
                        · intro c hcc
                          exact absurd hcc (by simp)
                        · intro p' hp'
                          have : p = p' := by simpa using hp'
                          subst this
                          exact hg.2 p hq
                    | none =>
                        dsimp only
                        refine ⟨?_, ?_⟩
                        · intro c hcc
                          exact absurd hcc (by simp)
                        · intro p' hp'
                          exact absurd hp' (by simp)
                | cons q qs =>
                    cases hqs : qs with
                    | nil =>
                        dsimp only
                        refine ⟨?_, ?_⟩
                        · intro c hcc
                          have : q.2 = c := by simpa using hcc
                          subst this
                          refine ⟨q.1, by simp, ?_⟩
                          exact owner_lookup P.index dn [q] q hown
                            (by rw [hlook, hps, hqs]) (by simp)
                        · intro p' hp'
                          have : q.1 = p' := by simpa using hp'
                          subst this
                          exact owner_prov P.index dn [q] q hdtc
                            (by rw [hlook, hps, hqs]) (by simp)
                    | cons q2 qs2 =>
                        dsimp only
                        cases hq : st.province with
                        | some p =>
                            simp only [eq_self_iff_true, if_true]
                            cases hfind : List.find? (fun x => x.1 == p)
                                (q :: q2 :: qs2) with
                            | some qf =>
                                try rw [hfind]
                                have hqmem : qf ∈ q :: q2 :: qs2 :=
                                  List.mem_of_find?_eq_some hfind
                                have hqp : qf.1 = p := by
                                  have := List.find?_some hfind
                                  simpa using this
                                refine ⟨?_, ?_⟩
                                · intro c hcc
                                  have : qf.2 = c := by simpa using hcc
                                  subst this
                                  refine ⟨p, by simp, ?_⟩
                                  rw [← hqp]
                                  exact owner_lookup P.index dn (q :: q2 :: qs2)
                                    qf hown (by rw [hlook, hps, hqs]) hqmem
                                · intro p' hp'
                                  have : p = p' := by simpa using hp'
                                  subst this
                                  exact hg.2 p hq
                            | none =>
                                try rw [hfind]
                                refine ⟨?_, ?_⟩
                                · intro c hcc
                                  exact absurd hcc (by simp)
                                · intro p' hp'
                                  have : p = p' := by simpa using hp'
                                  subst this
                                  exact hg.2 p hq
                        | none =>
                            dsimp only
                            refine ⟨?_, ?_⟩
                            · intro c hcc
                              exact absurd hcc (by simp)
                            · intro p' hp'
                              exact absurd hp' (by simp)

/-! ## Lemmas: the remaining text only shrinks from the front -/

theorem stage2_remaining (P : AddressParser) (st : PState) :
    (stage2 P st).remaining <:+ st.remaining := by
  unfold stage2
  dsimp only
  by_cases hpd : prefer_district st.province.isNone
      (P.city_trie.findLongest st.remaining)
      (P.district_trie.findLongest st.remaining) = true
  · rw [if_pos hpd]
    cases hd : P.district_trie.findLongest st.remaining with
    | none => exact List.suffix_refl _
    | some trip =>
        obtain ⟨m, dn, len⟩ := trip
        exact List.drop_suffix _ _
  · rw [if_neg hpd]
    cases hcm : P.city_trie.findLongest st.remaining with
    | none => exact List.suffix_refl _
    | some trip =>
        obtain ⟨m, cn, len⟩ := trip
        dsimp only
        by_cases hv : (match st.province with
          | some p => lookupA P.index.city_to_province cn == some p
          | none => true) = true
        · rw [if_pos hv]
          exact List.drop_suffix _ _
        · rw [if_neg hv]

theorem stage3_remaining (P : AddressParser) (st : PState) :
    (stage3 P st).remaining <:+ st.remaining := by
  unfold stage3
  by_cases hds : st.district.isSome
  · rw [if_pos hds]
  · rw [if_neg hds]
    cases heq : P.district_trie.findLongest st.remaining with
    | none => exact List.suffix_refl _
    | some trip =>
        obtain ⟨m, dn, len⟩ := trip
        dsimp only
        by_cases hv : (match st.city with
          | some c => P.index.validate_district c dn ||
              validate_district_flexible P c dn
          | none => true) = true
        · rw [if_pos hv]
          exact List.drop_suffix _ _
        · rw [if_neg hv]

theorem stage4_remaining (P : AddressParser) (st : PState) :
    (stage4 P st).remaining = st.remaining := by
  unfold stage4
  split
  · split <;> rfl
  · rfl

theorem finishStages_remaining (P : AddressParser) (prov : Option Str)
    (rem : Str) :
    ∃ r, r <:+ rem ∧ finishStages P prov rem =
      ⟨(stage4 P (stage3 P (stage2 P ⟨prov, none, none, rem⟩))).province,
       (stage4 P (stage3 P (stage2 P ⟨prov, none, none, rem⟩))).city,
       (stage4 P (stage3 P (stage2 P ⟨prov, none, none, rem⟩))).district,
       trim r⟩ := by
  refine ⟨(stage4 P (stage3 P (stage2 P ⟨prov, none, none, rem⟩))).remaining,
    ?_, rfl⟩
  rw [stage4_remaining]
  exact (stage3_remaining P _).trans (stage2_remaining P ⟨prov, none, none, rem⟩)

/-! ## Lemmas: the parse result as a whole -/

theorem finishStages_good (P : AddressParser) (prov : Option Str) (rem : Str)
    (hown : OwnerConsistent P.index) (hck : CityKeys P.index)
    (hctp : CtpProv P.index) (hdtc : DtcProv P.index)
    (hcv : TrieVals P.city_trie P.index.cities) (hmun : MunSelf P.index)
    (hprov : ∀ p, prov = some p → p ∈ P.index.provinces) :
    ∀ c, (finishStages P prov rem).city = some c →
      ∃ p, (finishStages P prov rem).province = some p ∧
        lookupA P.index.city_to_province c = some p := by
  have hg0 : GoodSt P.index ⟨prov, none, none, rem⟩ := by
    constructor
    · intro c hc
      exact absurd hc (by simp)
    · intro p hp
      exact hprov p hp
  have hg := stage4_good P _ hmun
    (stage3_good P _ hown hctp hdtc
      (stage2_good P _ hown hck hctp hdtc hcv hg0))
  intro c hc
  exact hg.1 c hc

theorem parse_good (P : AddressParser) (addr : Str)
    (hown : OwnerConsistent P.index) (hck : CityKeys P.index)
    (hctp : CtpProv P.index) (hdtc : DtcProv P.index)
    (hcv : TrieVals P.city_trie P.index.cities)
    (hpv : TrieVals P.province_trie P.index.provinces)
    (hmun : MunSelf P.index) :
    ∀ c, (P.parse addr).city = some c →
      ∃ p, (P.parse addr).province = some p ∧
        lookupA P.index.city_to_province c = some p := by
  unfold AddressParser.parse
  by_cases he : (trim addr).isEmpty
  · rw [if_pos he]
    intro c hc
    exact absurd hc (by simp [ParsedAddress.empty])
  · rw [if_neg he]
    cases hflp : P.province_trie.findLongest (trim addr) with
    | none =>
        dsimp only
        exact finishStages_good P none (trim addr) hown hck hctp hdtc hcv hmun
          (fun p hp => absurd hp (by simp))
    | some trip =>
        obtain ⟨m, norm, len⟩ := trip
        dsimp only
        have hnormp : norm ∈ P.index.provinces :=
          hpv m norm (findLongest_get P.province_trie (trim addr) m norm len hflp)
        by_cases hm : P.index.is_municipality norm = true
        · rw [if_pos hm]
          cases hd : P.district_trie.findLongest ((trim addr).drop m.length) with
          | none =>
              intro c hc
              have : norm = c := by simpa using hc
              subst this
              exact ⟨norm, by simp, hmun norm hnormp hm⟩
          | some dtrip =>
              obtain ⟨dm, dn, dlen⟩ := dtrip
              dsimp only
              split
              · intro c hc
                have : norm = c := by simpa using hc
                subst this
                exact ⟨norm, by simp, hmun norm hnormp hm⟩
              · intro c hc
                have : norm = c := by simpa using hc
                subst this
                exact ⟨norm, by simp, hmun norm hnormp hm⟩
        · rw [if_neg hm]
          exact finishStages_good P (some norm) _ hown hck hctp hdtc hcv hmun
            (fun p hp => by
              have : norm = p := by simpa using hp
              exact this ▸ hnormp)

theorem parse_detail (P : AddressParser) (addr : Str) :
    ∃ rem, rem <:+ trim addr ∧ (P.parse addr).detail = trim rem := by
  unfold AddressParser.parse
  by_cases he : (trim addr).isEmpty
  · rw [if_pos he]
    exact ⟨[], List.nil_suffix, rfl⟩
  · rw [if_neg he]
    cases hflp : P.province_trie.findLongest (trim addr) with
    | none =>
        dsimp only
        rcases finishStages_remaining P none (trim addr) with ⟨r, hr, heq⟩
        exact ⟨r, hr, by rw [heq]⟩
    | some trip =>
        obtain ⟨m, norm, len⟩ := trip
        dsimp only
        by_cases hm : P.index.is_municipality norm = true
        · rw [if_pos hm]
          cases hd : P.district_trie.findLongest ((trim addr).drop m.length) with
          | none => exact ⟨(trim addr).drop m.length, List.drop_suffix _ _, rfl⟩
          | some dtrip =>
              obtain ⟨dm, dn, dlen⟩ := dtrip
              dsimp only
              split
              · exact ⟨((trim addr).drop m.length).drop dm.length,
                  (List.drop_suffix _ _).trans (List.drop_suffix _ _), rfl⟩
              · exact ⟨(trim addr).drop m.length, List.drop_suffix _ _, rfl⟩
        · rw [if_neg hm]
          rcases finishStages_remaining P (some norm) ((trim addr).drop m.length)
            with ⟨r, hr, heq⟩
          exact ⟨r, hr.trans (List.drop_suffix _ _), by rw [heq]⟩

theorem parse_nomatch (P : AddressParser) (addr : Str)
    (hp : P.province_trie.findLongest (trim addr) = none)
    (hc : P.city_trie.findLongest (trim addr) = none)
    (hd : P.district_trie.findLongest (trim addr) = none) :
    P.parse addr = ⟨none, none, none, trim addr⟩ := by
  unfold AddressParser.parse
  by_cases he : (trim addr).isEmpty
  · rw [if_pos he]
    have h0 : trim addr = [] := List.isEmpty_iff.mp he
    rw [h0]
    rfl
  · rw [if_neg he]
    rw [hp]
    dsimp only
    unfold finishStages
    have h2 : stage2 P ⟨none, none, none, trim addr⟩ =
        ⟨none, none, none, trim addr⟩ := by
      unfold stage2
      dsimp only
      rw [hc, hd]
      rfl
    have h3 : stage3 P ⟨none, none, none, trim addr⟩ =
        ⟨none, none, none, trim addr⟩ := by
      unfold stage3
      dsimp only
      rw [hd]
      rfl
    rw [h2, h3]
    have h4 : stage4 P ⟨none, none, none, trim addr⟩ =
        ⟨none, none, none, trim addr⟩ := rfl
    rw [h4]
    dsimp only
    rw [trim_idem]

theorem prefer_district_false (cm dm : Option (Str × Str × Nat)) :
    prefer_district false cm dm = false := rfl

theorem parse_pcd (P : AddressParser) (a b d s : Str)
    (htrim : trim (a ++ (b ++ (d ++ s))) = a ++ (b ++ (d ++ trimRight s)))
    (hpflp : P.province_trie.findLongest (a ++ (b ++ (d ++ trimRight s))) =
      some (a, a, utf8Len a))
    (hmun : P.index.is_municipality a = false)
    (hcm : P.city_trie.findLongest (b ++ (d ++ trimRight s)) =
      some (b, b, utf8Len b))
    (hvalid : lookupA P.index.city_to_province b = some a)
    (hdm : P.district_trie.findLongest (d ++ trimRight s) =
      some (d, d, utf8Len d))
    (hvd : P.index.validate_district b d = true) :
    P.parse (a ++ (b ++ (d ++ s))) = ⟨some a, some b, some d, trim s⟩ := by
  have hfalse : ¬(false = true) := by simp
  have hne : ¬((a ++ (b ++ (d ++ trimRight s))).isEmpty = true) := by
    rw [List.isEmpty_iff]
    intro h
    have hspec := findLongest_spec P.province_trie (a ++ (b ++ (d ++ trimRight s)))
    rw [hpflp] at hspec
    exact hspec.1 (List.prefix_nil.mp (h ▸ hspec.2.1))
  have hm' : ¬(P.index.is_municipality a = true) := by
    rw [hmun]
    exact hfalse
  have h2 : stage2 P ⟨some a, none, none, b ++ (d ++ trimRight s)⟩ =
      ⟨some a, some b, none, d ++ trimRight s⟩ := by
    unfold stage2
    dsimp only
    rw [hcm]
    rw [show prefer_district (some a : Option Str).isNone
        (some (b, b, utf8Len b))
        (P.district_trie.findLongest (b ++ (d ++ trimRight s))) = false from rfl]
    rw [if_neg hfalse]
    dsimp only
    rw [hvalid]
    rw [if_pos (by simp : ((some a : Option Str) == some a) = true)]
    rw [List.drop_left]
  have h3 : stage3 P ⟨some a, some b, none, d ++ trimRight s⟩ =
      ⟨some a, some b, some d, trimRight s⟩ := by
    unfold stage3
    rw [if_neg (by simp : ¬((none : Option Str).isSome = true)), hdm]
    dsimp only
    rw [hvd, Bool.true_or, if_pos rfl]
    rw [if_neg (by simp : ¬((some b : Option Str).isNone = true))]
    dsimp only
    rw [List.drop_left]
  have h4 : stage4 P ⟨some a, some b, some d, trimRight s⟩ =
      ⟨some a, some b, some d, trimRight s⟩ := by
    unfold stage4
    dsimp only
    rw [hmun, Bool.false_and]
    rw [if_neg hfalse]
  unfold AddressParser.parse
  dsimp only
  rw [htrim]
  rw [if_neg hne]
  rw [hpflp]
  dsimp only
  rw [if_neg hm']
  rw [List.drop_left]
  unfold finishStages
  rw [h2, h3, h4]
  dsimp only
  rw [trim_trimRight]

/-! ## The claims -/

/-- C1 counterexample: for the municipality record
(北京市, 北京市, 朝阳区) of the index, parsing the concatenation
province ++ city ++ district (empty suffix) does NOT recover the
district: the municipality shortcut consumes the province and then fails
to match a district against the repeated city text, leaving the district
unset and the whole tail in `detail`. -/
theorem C1_counterexample :
    (⟨chars "北京市", chars "北京市", some (chars "朝阳区")⟩ : Region) ∈ regions0 ∧
    P0.parse (chars "北京市" ++ (chars "北京市" ++ (chars "朝阳区" ++ ([] : Str)))) =
      ⟨some (chars "北京市"), some (chars "北京市"), none, chars "北京市朝阳区"⟩ ∧
    (P0.parse (chars "北京市" ++ (chars "北京市" ++ (chars "朝阳区" ++ ([] : Str))))).district ≠
      some (chars "朝阳区") :=
  ⟨by decide, by decide, by decide⟩

/-- C1 (amended): for every (province, city, district) record of the
index whose province is NOT a municipality, and every suffix text,
parsing province ++ city ++ district ++ suffix recovers exactly that
triple, with `detail` equal to the trimmed suffix. -/
theorem C1_theorem : ∀ r ∈ regions0, ∀ d, r.district = some d →
    P0.index.is_municipality r.province = false →
    ∀ s, P0.parse (r.province ++ (r.city ++ (d ++ s))) =
      ⟨some r.province, some r.city, some d, trim s⟩ := by
  intro r hr d hd hm s
  have hr' : r = ⟨chars "广东省", chars "深圳市", some (chars "南山区")⟩ ∨
      r = ⟨chars "北京市", chars "北京市", some (chars "朝阳区")⟩ ∨
      r = ⟨chars "吉林省", chars "长春市", some (chars "朝阳区")⟩ ∨
      r = ⟨chars "辽宁省", chars "朝阳市", some (chars "双塔区")⟩ := by
    simpa [regions0] using hr
  rcases hr' with h | h | h | h <;> subst h
  · have hd' : chars "南山区" = d := by simpa using hd
    subst hd'
    exact parse_pcd P0 (chars "广东省") (chars "深圳市") (chars "南山区") s
      (by
        have h1 : chars "广东省" ++ (chars "深圳市" ++ (chars "南山区" ++ s)) =
            (chars "广东省" ++ (chars "深圳市" ++ chars "南山区")) ++ s := by
          simp [List.append_assoc]
        have h2 : chars "广东省" ++ (chars "深圳市" ++ (chars "南山区" ++ trimRight s)) =
            (chars "广东省" ++ (chars "深圳市" ++ chars "南山区")) ++ trimRight s := by
          simp [List.append_assoc]
        rw [h1, h2]
        exact trim_append_fixed _ _ (by decide) (by decide) (by decide))
      (findLongest_leaf _ _ _ _ (by decide) (by decide))
      (by decide)
      (findLongest_leaf _ _ _ _ (by decide) (by decide))
      (by decide)
      (findLongest_leaf _ _ _ _ (by decide) (by decide))
      (by decide)
  · exact absurd hm (by decide)
  · have hd' : chars "朝阳区" = d := by simpa using hd
    subst hd'
    exact parse_pcd P0 (chars "吉林省") (chars "长春市") (chars "朝阳区") s
      (by
        have h1 : chars "吉林省" ++ (chars "长春市" ++ (chars "朝阳区" ++ s)) =
            (chars "吉林省" ++ (chars "长春市" ++ chars "朝阳区")) ++ s := by
          simp [List.append_assoc]
        have h2 : chars "吉林省" ++ (chars "长春市" ++ (chars "朝阳区" ++ trimRight s)) =
            (chars "吉林省" ++ (chars "长春市" ++ chars "朝阳区")) ++ trimRight s := by
          simp [List.append_assoc]
        rw [h1, h2]
        exact trim_append_fixed _ _ (by decide) (by decide) (by decide))
      (findLongest_leaf _ _ _ _ (by decide) (by decide))
      (by decide)
      (findLongest_leaf _ _ _ _ (by decide) (by decide))
      (by decide)
      (findLongest_leaf _ _ _ _ (by decide) (by decide))
      (by decide)
  · have hd' : chars "双塔区" = d := by simpa using hd
    subst hd'
    exact parse_pcd P0 (chars "辽宁省") (chars "朝阳市") (chars "双塔区") s
      (by
        have h1 : chars "辽宁省" ++ (chars "朝阳市" ++ (chars "双塔区" ++ s)) =
            (chars "辽宁省" ++ (chars "朝阳市" ++ chars "双塔区")) ++ s := by
          simp [List.append_assoc]
        have h2 : chars "辽宁省" ++ (chars "朝阳市" ++ (chars "双塔区" ++ trimRight s)) =
            (chars "辽宁省" ++ (chars "朝阳市" ++ chars "双塔区")) ++ trimRight s := by
          simp [List.append_assoc]
        rw [h1, h2]
        exact trim_append_fixed _ _ (by decide) (by decide) (by decide))
      (findLongest_leaf _ _ _ _ (by decide) (by decide))
      (by decide)
      (findLongest_leaf _ _ _ _ (by decide) (by decide))
      (by decide)
      (findLongest_leaf _ _ _ _ (by decide) (by decide))
      (by decide)

/-- C1 witness: the amended theorem applied to the record
(广东省, 深圳市, 南山区) with suffix 科技园. -/
theorem C1_witness :
    P0.parse (chars "广东省" ++ (chars "深圳市" ++ (chars "南山区" ++ chars "科技园"))) =
      ⟨some (chars "广东省"), some (chars "深圳市"), some (chars "南山区"),
        chars "科技园"⟩ := by
  have h := C1_theorem ⟨chars "广东省", chars "深圳市", some (chars "南山区")⟩
    (by decide) (chars "南山区") rfl (by decide) (chars "科技园")
  exact h.trans (by decide)

/-- C2 counterexample: inserting the empty name makes the trie root a
terminal with a stored value; the empty name is trivially a prefix of
every text, yet `find_longest_prefix` can never report it — so "no match
exactly when no inserted name is a prefix" fails as stated. -/
theorem C2_counterexample :
    (Trie.empty.insert [] (chars "x")).get [] = some (chars "x") ∧
    ([] : Str) <+: chars "a" ∧
    (Trie.empty.insert [] (chars "x")).findLongest (chars "a") = none :=
  ⟨by decide, ⟨chars "a", rfl⟩, by decide⟩

/-- C2 (amended): `insert` stores the value at its exact key, and
`find_longest_prefix` returns the longest NONEMPTY registered name that
is a prefix of the text (with its stored value and its byte length,
extending past earlier terminal nodes), and returns no match exactly when
no nonempty registered name is a prefix of the text. -/
theorem C2_theorem :
    (∀ (t : Trie) (w v : Str), (t.insert w v).get w = some v) ∧
    (∀ (t : Trie) (text : Str),
      match t.findLongest text with
      | some (m, v, len) =>
          m ≠ [] ∧ m <+: text ∧ t.get m = some v ∧ len = utf8Len m ∧
            ∀ w, w ≠ [] → w <+: text → (t.get w).isSome → w.length ≤ m.length
      | none => ∀ w, w ≠ [] → w <+: text → t.get w = none) := by
  constructor
  · intro t w v
    rw [get_insert, if_pos rfl]
  · intro t text
    have h := findLongest_spec t text
    unfold MatchSpec at h
    exact h

/-- C2 witness: the characterization applied to a concrete two-key trie
and text, with every hypothesis discharged. -/
theorem C2_witness :
    (Trie.empty.insert (chars "ab") (chars "A")).get (chars "ab") =
      some (chars "A") ∧
    chars "ab" <+: chars "abc" ∧
    (chars "ab").length ≤ (chars "ab").length := by
  have h := C2_theorem.2 (Trie.empty.insert (chars "ab") (chars "A"))
    (chars "abc")
  have e : (Trie.empty.insert (chars "ab") (chars "A")).findLongest
      (chars "abc") = some (chars "ab", chars "A", 2) := by decide
  rw [e] at h
  exact ⟨C2_theorem.1 Trie.empty (chars "ab") (chars "A"), h.2.1,
    h.2.2.2.2 (chars "ab") (by decide) (by decide) (by decide)⟩

/-- C3: the city-vs-district precedence condition of parse step 2 is
true exactly when no province was recorded AND (the district match is
byte-longer than the city match, or its canonical value ends in 区, 县
or 旗, or only the district matcher matched); it is false whenever a
province was recorded or only the city matcher matched. -/
theorem C3_theorem : ∀ (provNone : Bool) (cm dm : Option (Str × Str × Nat)),
    prefer_district provNone cm dm = true ↔
      (provNone = true ∧
        ((∃ mc vc lc md vd ld, cm = some (mc, vc, lc) ∧ dm = some (md, vd, ld) ∧
            (lc < ld ∨ vd.getLast? = some '区' ∨ vd.getLast? = some '县' ∨
              vd.getLast? = some '旗')) ∨
          (cm = none ∧ dm ≠ none))) := by
  intro provNone cm dm
  cases provNone with
  | false => simp [prefer_district]
  | true =>
      cases cm with
      | none =>
          cases dm with
          | none => simp [prefer_district]
          | some y => simp [prefer_district]
      | some x =>
          obtain ⟨mc, vc, lc⟩ := x
          cases dm with
          | none => simp [prefer_district]
          | some y =>
              obtain ⟨md, vd, ld⟩ := y
              have hb : prefer_district true (some (mc, vc, lc))
                  (some (md, vd, ld)) = true ↔
                  (lc < ld ∨ vd.getLast? = some '区' ∨ vd.getLast? = some '县' ∨
                    vd.getLast? = some '旗') := by
                simp [prefer_district, endsWithChar]
                tauto
              rw [hb]
              constructor
              · intro h
                exact ⟨rfl, Or.inl ⟨mc, vc, lc, md, vd, ld, rfl, rfl, h⟩⟩
              · rintro ⟨-, h | ⟨hcm, hdm⟩⟩
                · obtain ⟨mc', vc', lc', md', vd', ld', hcm, hdm, hcond⟩ := h
                  have e1 : mc = mc' ∧ vc = vc' ∧ lc = lc' := by
                    simpa using hcm
                  have e2 : md = md' ∧ vd = vd' ∧ ld = ld' := by
                    simpa using hdm
                  obtain ⟨rfl, rfl, rfl⟩ := e1
                  obtain ⟨rfl, rfl, rfl⟩ := e2
                  exact hcond
                · exact absurd hcm (by simp)

/-- C4: whenever the province-stage match is a municipality, parse sets
city := province, attempts exactly one longest-prefix district match on
the remaining text, records the district only when
`validate_district(province, district)` holds (consuming it), makes the
trimmed rest the `detail`, and returns that result immediately — the
city-vs-district and district-completion steps never run. -/
theorem C4_theorem : ∀ (P : AddressParser) (addr : Str) (m norm : Str) (len : Nat),
    trim addr ≠ [] →
    P.province_trie.findLongest (trim addr) = some (m, norm, len) →
    P.index.is_municipality norm = true →
    P.parse addr =
      (match P.district_trie.findLongest ((trim addr).drop m.length) with
       | some (dm, dn, _) =>
           if P.index.validate_district norm dn = true then
             ⟨some norm, some norm, some dn,
               trim (((trim addr).drop m.length).drop dm.length)⟩
           else ⟨some norm, some norm, none, trim ((trim addr).drop m.length)⟩
       | none => ⟨some norm, some norm, none, trim ((trim addr).drop m.length)⟩) := by
  intro P addr m norm len hne hflp hm
  unfold AddressParser.parse
  rw [if_neg (by rw [List.isEmpty_iff]; exact hne)]
  rw [hflp]
  dsimp only
  rw [if_pos hm]

/-- C4 witness: the municipality branch evaluated on 北京市朝阳区望京. -/
theorem C4_witness :
    P0.parse (chars "北京市朝阳区望京") =
      ⟨some (chars "北京市"), some (chars "北京市"), some (chars "朝阳区"),
        chars "望京"⟩ := by
  have h := C4_theorem P0 (chars "北京市朝阳区望京") (chars "北京市")
    (chars "北京市") 9 (by decide) (by decide) (by decide)
  exact h.trans (by decide)

/-- C5: parse is a total function and degrades gracefully: (1) when no
matcher finds a prefix of the trimmed input, the result has all three
fields absent and the entire trimmed input as `detail`; (2) for the
district name 朝阳区, owned by two distinct (province, city) pairs in the
index, parsing the bare district name yields province = none,
city = none, district = some 朝阳区. -/
theorem C5_theorem :
    (∀ (P : AddressParser) (addr : Str),
       P.province_trie.findLongest (trim addr) = none →
       P.city_trie.findLongest (trim addr) = none →
       P.district_trie.findLongest (trim addr) = none →
       P.parse addr = ⟨none, none, none, trim addr⟩) ∧
    (lookupA P0.index.district_to_city (chars "朝阳区") =
       some [(chars "北京市", chars "北京市"), (chars "吉林省", chars "长春市")] ∧
     (chars "北京市", chars "北京市") ≠ (chars "吉林省", chars "长春市") ∧
     P0.parse (chars "朝阳区") = ⟨none, none, some (chars "朝阳区"), []⟩) := by
  constructor
  · exact parse_nomatch
  · exact ⟨by decide, by decide, by decide⟩

/-- C5 witness: the no-match half applied to an address with no
recognizable prefix. -/
theorem C5_witness :
    P0.parse (chars "某某路123号") =
      ⟨none, none, none, trim (chars "某某路123号")⟩ :=
  C5_theorem.1 P0 (chars "某某路123号") (by decide) (by decide) (by decide)

/-- C6: on canonical input (names already present in the index),
normalize is exactly concatenation: normalize(p, c, d) =
p ++ c ++ (d or ""), with no separator and no de-duplication of a
municipality's repeated name. -/
theorem C6_theorem : ∀ (p c : Str) (d : Option Str),
    p ∈ P0.index.provinces → c ∈ P0.index.cities →
    (∀ x, d = some x → x ∈ P0.index.districts) →
    P0.normalize p c d = p ++ c ++ (match d with | some x => x | none => []) := by
  intro p c d hp hc hd
  have hp' : p = chars "广东省" ∨ p = chars "北京市" ∨ p = chars "吉林省" ∨
      p = chars "辽宁省" := by
    have e : P0.index.provinces =
        [chars "广东省", chars "北京市", chars "吉林省", chars "辽宁省"] := by
      decide
    rw [e] at hp
    simpa using hp
  have hc' : c = chars "深圳市" ∨ c = chars "北京市" ∨ c = chars "长春市" ∨
      c = chars "朝阳市" := by
    have e : P0.index.cities =
        [chars "深圳市", chars "北京市", chars "长春市", chars "朝阳市"] := by
      decide
    rw [e] at hc
    simpa using hc
  cases d with
  | none =>
      rcases hp' with h | h | h | h <;> subst h <;>
        rcases hc' with h | h | h | h <;> subst h <;> decide
  | some x =>
      have hx : x = chars "南山区" ∨ x = chars "朝阳区" ∨ x = chars "双塔区" := by
        have e : P0.index.districts =
            [chars "南山区", chars "朝阳区", chars "双塔区"] := by decide
        have hm := hd x rfl
        rw [e] at hm
        simpa using hm
      rcases hp' with h | h | h | h <;> subst h <;>
        rcases hc' with h | h | h | h <;> subst h <;>
        rcases hx with h | h | h <;> subst h <;> decide

/-- C6 witness: the municipality's repeated name is not de-duplicated. -/
theorem C6_witness :
    P0.normalize (chars "北京市") (chars "北京市") (some (chars "朝阳区")) =
      chars "北京市北京市朝阳区" := by
  have h := C6_theorem (chars "北京市") (chars "北京市") (some (chars "朝阳区"))
    (by decide) (by decide)
    (by
      intro x hx
      rw [← Option.some.inj hx]
      decide)
  exact h.trans (by decide)

/-- C7 counterexample: for the alias pair (广东, 广东省) and
rest = 省双塔区, the two parses resolve DIFFERENT provinces: the short
form consumes 广东省 leaving 双塔区, whose unique owner reverse-inference
overwrites the province with 辽宁省, while the full form leaves 省双塔区,
which matches nothing. -/
theorem C7_counterexample :
    (chars "广东", chars "广东省") ∈ province_aliases ∧
    (P0.parse (chars "广东" ++ chars "省双塔区")).province =
      some (chars "辽宁省") ∧
    (P0.parse (chars "广东省" ++ chars "省双塔区")).province =
      some (chars "广东省") ∧
    some (chars "辽宁省") ≠ some (chars "广东省") :=
  ⟨by decide, by decide, by decide, by decide⟩

/-- C7 (amended): for every alias pair whose full form is a province of
the index, the province-stage longest-prefix match resolves the same
canonical province for short ++ rest and full ++ rest, for every rest;
the final parse provinces can still differ, because the
district-completion step may overwrite an already-recorded province when
a matched district has a unique owner. -/
theorem C7_theorem : ∀ q ∈ province_aliases.filter
      (fun q => P0.index.provinces.contains q.2), ∀ rest : Str,
    (P0.province_trie.findLongest (q.1 ++ rest)).map (fun x => x.2.1) =
      some q.2 ∧
    (P0.province_trie.findLongest (q.2 ++ rest)).map (fun x => x.2.1) =
      some q.2 := by
  intro q hq rest
  have e : province_aliases.filter (fun q => P0.index.provinces.contains q.2) =
      [(chars "广东", chars "广东省"), (chars "辽宁", chars "辽宁省"),
       (chars "吉林", chars "吉林省"), (chars "北京", chars "北京市")] := by
    decide
  rw [e] at hq
  have hq' : q = (chars "广东", chars "广东省") ∨
      q = (chars "辽宁", chars "辽宁省") ∨ q = (chars "吉林", chars "吉林省") ∨
      q = (chars "北京", chars "北京市") := by simpa using hq
  rcases hq' with h | h | h | h <;> subst h <;>
    exact ⟨findLongest_value _ _ _ 4 rest (by decide) (by decide),
      findLongest_value _ _ _ 4 rest (by decide) (by decide)⟩

/-- C7 witness: the amended equivalence applied to (广东, 广东省) with
rest = 深圳市. -/
theorem C7_witness :
    (P0.province_trie.findLongest (chars "广东" ++ chars "深圳市")).map
      (fun x => x.2.1) = some (chars "广东省") :=
  (C7_theorem (chars "广东", chars "广东省") (by decide) (chars "深圳市")).1

/-- C8 counterexample: on input 广东省 X the unconsumed remainder is
" X" (with a leading space); right-trimming would keep the leading
space, but parse's detail is the BOTH-ends-trimmed "X". -/
theorem C8_counterexample :
    P0.parse (chars "广东省 X") = ⟨some (chars "广东省"), none, none, chars "X"⟩ ∧
    trimRight (chars " X") = chars " X" ∧
    chars "X" ≠ chars " X" :=
  ⟨by decide, by decide, by decide⟩

/-- C8 (amended): for every parser and input, the detail field equals
the actual unconsumed remainder of the parse - the final value of the
remaining variable, i.e. the trimmed input with the matched province
slice, the municipality-branch district slice, and the step 2-3
consumptions stripped, as computed by parseRemaining - with whitespace
removed from BOTH ends (str::trim), not merely right-trimmed; that
remainder is a suffix of the trimmed input. -/
theorem C8_theorem : ∀ (P : AddressParser) (addr : Str),
    (P.parse addr).detail = trim (parseRemaining P addr) ∧
    parseRemaining P addr <:+ trim addr := by
  intro P addr
  unfold AddressParser.parse parseRemaining
  by_cases he : (trim addr).isEmpty
  · rw [if_pos he, if_pos he]
    exact ⟨rfl, List.nil_suffix⟩
  · rw [if_neg he, if_neg he]
    cases hflp : P.province_trie.findLongest (trim addr) with
    | none =>
        dsimp only
        constructor
        · unfold finishStages
          rfl
        · rw [stage4_remaining]
          exact (stage3_remaining P _).trans (stage2_remaining P _)
    | some trip =>
        obtain ⟨m, norm, len⟩ := trip
        dsimp only
        by_cases hm : P.index.is_municipality norm = true
        · rw [if_pos hm, if_pos hm]
          cases hd : P.district_trie.findLongest ((trim addr).drop m.length) with
          | none => exact ⟨rfl, List.drop_suffix _ _⟩
          | some dtrip =>
              obtain ⟨dm, dn, dlen⟩ := dtrip
              dsimp only
              by_cases hv : P.index.validate_district norm dn = true
              · rw [if_pos hv, if_pos hv]
                exact ⟨rfl, (List.drop_suffix _ _).trans (List.drop_suffix _ _)⟩
              · rw [if_neg hv, if_neg hv]
                exact ⟨rfl, List.drop_suffix _ _⟩
        · rw [if_neg hm, if_neg hm]
          constructor
          · unfold finishStages
            rfl
          · rw [stage4_remaining]
            exact ((stage3_remaining P _).trans (stage2_remaining P _)).trans
              (List.drop_suffix _ _)

/-- C9: every byte length reported by the longest-prefix matcher is the
UTF-8 length of a character-boundary prefix of its input text and lies
within the text's byte length, so the byte-indexed slice taken by parse
after a match falls on a character boundary and in bounds (and equals
dropping the matched characters). -/
theorem C9_theorem : ∀ (t : Trie) (text m v : Str) (len : Nat),
    t.findLongest text = some (m, v, len) →
    m <+: text ∧ len = utf8Len m ∧ len ≤ utf8Len text ∧
      ∃ k, k ≤ text.length ∧ len = utf8Len (text.take k) := by
  intro t text m v len h
  have hs := findLongest_spec t text
  rw [h] at hs
  obtain ⟨hne, hpre, hget, hlen, hmax⟩ := hs
  refine ⟨hpre, hlen, ?_, ⟨m.length, hpre.length_le, ?_⟩⟩
  · rcases hpre with ⟨r, hr⟩
    rw [← hr, utf8Len_append, hlen]
    omega
  · rw [← List.prefix_iff_eq_take.mp hpre]
    exact hlen

/-- C9 witness: the boundary property at a concrete match. -/
theorem C9_witness :
    chars "广东省" <+: chars "广东省深圳市" ∧ 9 = utf8Len (chars "广东省") ∧
    9 ≤ utf8Len (chars "广东省深圳市") ∧
    ∃ k, k ≤ (chars "广东省深圳市").length ∧
      9 = utf8Len ((chars "广东省深圳市").take k) :=
  C9_theorem P0.province_trie (chars "广东省深圳市") (chars "广东省")
    (chars "广东省") 9 (by decide)

/-- C10: for an index whose recorded district owners agree with the
city-to-province map and whose municipalities are registered as their own
cities, every parse result with city = Some c also has
province = Some p where p is the province registered for c in the
city-to-province map. -/
theorem C10_theorem : ∀ (regions : List Region) (addr : Str),
    (∀ p ∈ (RegionIndex.build regions).provinces,
       (RegionIndex.build regions).is_municipality p = true →
       lookupA (RegionIndex.build regions).city_to_province p = some p) →
    (∀ e ∈ (RegionIndex.build regions).district_to_city, ∀ q ∈ e.2,
       lookupA (RegionIndex.build regions).city_to_province q.2 = some q.1) →
    ∀ c, ((AddressParser.new regions).parse addr).city = some c →
      ∃ p, ((AddressParser.new regions).parse addr).province = some p ∧
        lookupA (RegionIndex.build regions).city_to_province c = some p := by
  intro regions addr hmun hown c hc
  have hb := build_inv regions
  exact parse_good (AddressParser.new regions) addr hown hb.2.2 hb.1 hb.2.1
    (cityTrieVals regions) (provTrieVals regions) hmun c hc

/-- C10 witness: the invariant at a concrete parse over the modelled
gazetteer, whose consistency hypotheses hold by computation. -/
theorem C10_witness :
    ∃ p, (P0.parse (chars "深圳市X")).province = some p ∧
      lookupA (RegionIndex.build regions0).city_to_province (chars "深圳市") =
        some p :=
  C10_theorem regions0 (chars "深圳市X") (by decide) (by decide)
    (chars "深圳市") (by decide)
